import Mathlib

/-!
Verification of the core logic of the `memorymuse/general-tools` repository:
the FileDetective file-discovery tool (`filedetective/core/file_finder.py`,
`filedetective/core/history.py`) and the ai-log-sync conversation aggregator
(`ai_log_sync/models.py`, `ai_log_sync/index.py`,
`ai_log_sync/collectors/chatgpt_export.py`).

Modelling conventions (shallow embedding of the Python source):
* Python `str` is Lean `String`; `str.lower` is modelled per-character for
  ASCII (`pyLower`), which is exact on the inputs the tool handles.
* `datetime` values are modelled as integers (comparison with `>` / `<` is
  order-isomorphic); `datetime.isoformat()` is modelled as the decimal
  rendering of that integer.  Python `float` file times are modelled as `Int`.
* The filesystem is a finite rose tree (`FSTree`); `os.walk` with in-place
  `dirs[:]` pruning is `walkTree`.  Files are always statable and readable in
  the model: the `OSError`/`PermissionError` skip branches of the source are
  the identity on the modelled filesystem, and are noted where they occur.
* Python `dict` is an association list keyed by first occurrence, with
  dict-update semantics (`dictSet` replaces in place, else appends).
* Functions written with a `while` loop over untrusted graph-shaped input
  (`_traverse_conversation_tree`) are embedded with an explicit fuel
  parameter; `none` means the loop has not terminated within the given fuel,
  so `∀ fuel, ... = none` states genuine divergence of the Python loop.
* `fnmatch.fnmatch` is modelled by `globMatch` supporting `*` and `?`
  wildcards and literal characters (the `[seq]` character-class syntax is not
  exercised by any claim and is treated as literal characters).
-/

/-- Python `str.lower` on a single character, ASCII range (exact for the
ASCII file names and patterns the tool manipulates). -/
def pyLower (c : Char) : Char :=
  if 65 ≤ c.toNat ∧ c.toNat ≤ 90 then Char.ofNat (c.toNat + 32) else c

/-- Python `str.lower` on a string (ASCII). -/
def lowerStr (s : String) : String := ⟨s.data.map pyLower⟩

/-- Python `sep.join(parts)`. -/
def joinSep (sep : String) : List String → String
  | [] => ""
  | [x] => x
  | x :: y :: t => x ++ sep ++ joinSep sep (y :: t)

/-- Join character lists with the path separator `/`. -/
def joinChars : List (List Char) → List Char
  | [] => []
  | [x] => x
  | x :: y :: t => x ++ '/' :: joinChars (y :: t)

/-- Absolute POSIX path string from components, as produced by
`str(Path(...))` on the paths the model constructs. -/
def pathStr (comps : List String) : String := ⟨'/' :: joinChars (comps.map String.data)⟩

/-- Worker for `pathComps`: split a character list on `/`, accumulating the
current component in reverse. -/
def splitSlashGo (cur : List Char) : List Char → List String
  | [] => [⟨cur.reverse⟩]
  | c :: cs =>
    if c = '/' then ⟨cur.reverse⟩ :: splitSlashGo [] cs
    else splitSlashGo (c :: cur) cs

/-- Split a path-like string into its non-empty `/`-separated components,
as `pathlib.Path(...).parts` does (minus the root entry). -/
def pathComps (s : String) : List String :=
  (splitSlashGo [] s.data).filter (· ≠ "")

/-- Glob matching worker with explicit fuel (the fuel is an upper bound on
the total remaining input, so the wrapper below is total).  Supports the
`*` and `?` wildcards of `fnmatch.translate`; all other characters match
literally. -/
def globMatchF : Nat → List Char → List Char → Bool
  | 0, _, _ => false
  | _ + 1, [], [] => true
  | _ + 1, [], _ :: _ => false
  | fuel + 1, '*' :: ps, [] => globMatchF fuel ps []
  | fuel + 1, '*' :: ps, c :: ns =>
    globMatchF fuel ps (c :: ns) || globMatchF fuel ('*' :: ps) ns
  | fuel + 1, '?' :: ps, _ :: ns => globMatchF fuel ps ns
  | _ + 1, '?' :: _, [] => false
  | fuel + 1, p :: ps, c :: ns => p == c && globMatchF fuel ps ns
  | _ + 1, _ :: _, [] => false

/-- Python `fnmatch.fnmatch(name, pat)` on POSIX (no case folding: the
callers in the source lower-case both arguments themselves where they want
case-insensitivity). -/
def fnmatchB (name pat : String) : Bool :=
  globMatchF (pat.data.length + name.data.length + 1) pat.data name.data

/-- Python `needle in haystack` substring test, on character lists. -/
def startsChars : List Char → List Char → Bool
  | [], _ => true
  | _ :: _, [] => false
  | a :: as, b :: bs => a == b && startsChars as bs

/-- Worker for `containsSub`: does the needle occur at any position? -/
def containsSubGo (nd : List Char) : List Char → Bool
  | [] => startsChars nd []
  | c :: cs => startsChars nd (c :: cs) || containsSubGo nd cs

/-- Substring occurrence test (`needle in haystack`). -/
def containsSub (haystack needle : String) : Bool :=
  containsSubGo needle.data haystack.data

/-- Decimal digits of a natural number (fuel-driven so that it reduces in
the kernel); used to model Python string interpolation of integers. -/
def natDigits : Nat → Nat → List Char
  | 0, _ => []
  | fuel + 1, n =>
    if n < 10 then [Char.ofNat (48 + n)]
    else natDigits fuel (n / 10) ++ [Char.ofNat (48 + n % 10)]

/-- Decimal rendering of a natural number. -/
def natStr (n : Nat) : String := ⟨natDigits (n + 1) n⟩

/-- Decimal rendering of an integer; models both Python `str(int)` and the
`datetime.isoformat()` of a timestamp modelled as an integer. -/
def intStr (i : Int) : String :=
  if i < 0 then "-" ++ natStr i.natAbs else natStr i.natAbs

mutual
/-- A filesystem entry: a regular file with stat metadata and text content,
or a directory with an ordered list of children. -/
inductive FSTree where
  | file (name : String) (mtime : Int) (size : Int) (content : String)
  | dir (name : String) (children : FSForest)

/-- Ordered list of sibling filesystem entries (directory listing order). -/
inductive FSForest where
  | nil
  | cons (hd : FSTree) (tl : FSForest)
end

/-- Name of a filesystem entry. -/
def FSTree.name : FSTree → String
  | .file n _ _ _ => n
  | .dir n _ => n

/-- First child with the given name (directory entries have unique names on
a real filesystem; lookup returns the first). -/
def findChild (n : String) : FSForest → Option FSTree
  | .nil => none
  | .cons c rest => if c.name = n then some c else findChild n rest

/-- Resolve a component path below a tree (directory descent); models
`Path.exists()` checks on the modelled filesystem. -/
def resolve : List String → FSTree → Option FSTree
  | [], t => some t
  | n :: rest, .dir _ cs =>
    match findChild n cs with
    | some c => resolve rest c
    | none => none
  | _ :: _, .file _ _ _ _ => none

/-- Resolve to a directory (a file does not count). -/
def resolveDir (comps : List String) (t : FSTree) : Option FSTree :=
  match resolve comps t with
  | some (.dir n cs) => some (.dir n cs)
  | _ => none

/-- A file produced by a directory walk: directory components relative to
the walk root, the file name, and its stat metadata and content. -/
structure WalkEntry where
  dirComps : List String
  fileName : String
  mtime : Int
  size : Int
  content : String
deriving DecidableEq, Repr

/-- The regular files directly inside a directory listing (the `files`
component that `os.walk` reports for the current directory). -/
def topFiles : FSForest → List WalkEntry
  | .nil => []
  | .cons (.file n m sz ct) rest => ⟨[], n, m, sz, ct⟩ :: topFiles rest
  | .cons (.dir _ _) rest => topFiles rest

mutual
/-- Model of `os.walk(root)` with in-place `dirs[:]` pruning: yields the
current directory's files, then recurses into each subdirectory whose name
the `skip` predicate does not prune.  Pruned directories are never visited
and their contents never read.  Walking a regular file yields nothing. -/
def walkTree (skip : String → Bool) : FSTree → List WalkEntry
  | .file _ _ _ _ => []
  | .dir _ cs => topFiles cs ++ walkSubdirs skip cs

/-- Recursion of `walkTree` over the pruned subdirectory list. -/
def walkSubdirs (skip : String → Bool) : FSForest → List WalkEntry
  | .nil => []
  | .cons (.file _ _ _ _) rest => walkSubdirs skip rest
  | .cons (.dir n sub) rest =>
    (if skip n then []
     else (walkTree skip (.dir n sub)).map
       (fun e => { e with dirComps := n :: e.dirComps })) ++ walkSubdirs skip rest
end

/-- A file or directory name is well formed: non-empty and free of the path
separator (true of every name a real filesystem can hold). -/
def validName (s : String) : Bool := !s.data.isEmpty && !s.data.contains '/'

/-- Names of the entries of a directory listing, in order. -/
def forestNames : FSForest → List String
  | .nil => []
  | .cons c rest => c.name :: forestNames rest

/-- Sibling names are pairwise distinct. -/
def namesNodup (cs : FSForest) : Bool := decide (forestNames cs).Nodup

mutual
/-- Well-formed filesystem: every name is `validName` and the children of
each directory have pairwise distinct names. -/
def validTree : FSTree → Bool
  | .file n _ _ _ => validName n
  | .dir n cs => validName n && validForest cs && namesNodup cs

/-- Well-formedness of a directory listing. -/
def validForest : FSForest → Bool
  | .nil => true
  | .cons c rest => validTree c && validForest rest
end

/-- Does the string start with the given character? -/
def startsWithChar (s : String) (c : Char) : Bool :=
  match s.data with
  | [] => false
  | a :: _ => a == c

/-! ## FileFinder (`filedetective/core/file_finder.py`) -/

/-- `FileMatch` dataclass: a matched file with metadata. -/
structure FileMatch where
  path : String
  priority : Int
  modified_date : Int
  size : Int
deriving DecidableEq, Repr

/-- One configured search root (`search_directories` entry of `config.yaml`):
path components, priority rank, recursive flag, excluded subdirectory names. -/
structure SearchDir where
  path : List String
  priority : Int
  recursive : Bool
  exclude : List String

/-- `FileFinder` configuration, as loaded by `__init__` from `config.yaml`
(`search_directories`, `skip_directories`, `skip_patterns`). -/
structure FinderConfig where
  search_dirs : List SearchDir
  skip_dirs : List String
  skip_patterns : List String

/-- Ascending priority, the key of the `sorted(..., key=priority)` call in
`FileFinder.__init__`. -/
def prioLe (a b : SearchDir) : Prop := a.priority ≤ b.priority

instance : DecidableRel prioLe := fun a b => by unfold prioLe; infer_instance

/-- The sort key order of `find_files`: ascending priority, then descending
modified date (`key=lambda m: (m.priority, -m.modified_date)`). -/
def keyLe (a b : FileMatch) : Prop :=
  a.priority < b.priority ∨ (a.priority = b.priority ∧ b.modified_date ≤ a.modified_date)

instance : DecidableRel keyLe := fun a b => by unfold keyLe; infer_instance

/-- Descending modified date (`key=lambda m: -m.modified_date`), the sort
used by the `local_dir` and explicit-directory branches of `find_files`. -/
def dateDesc (a b : FileMatch) : Prop := b.modified_date ≤ a.modified_date

instance : DecidableRel dateDesc := fun a b => by unfold dateDesc; infer_instance

/-- Strip an expected leading run of characters; `none` when it is absent. -/
def stripChars : List Char → List Char → Option (List Char)
  | [], rest => some rest
  | _ :: _, [] => none
  | b :: bs, f :: fcs => if b == f then stripChars bs fcs else none

/-- `Path(full).relative_to(base)` on the slash-joined paths this model
constructs: strips `base ++ "/"`; `none` models the `ValueError` branch. -/
def relativeToStr (full base : String) : Option String :=
  if full = base then some "."
  else
    match stripChars (base.data ++ ['/']) full.data with
    | some rest => some ⟨rest⟩
    | none => none

/-- `FileFinder._should_skip`: the file name matches one of the configured
skip patterns (case-sensitive `fnmatch`, as in the source). -/
def FileFinder.should_skip (cfg : FinderConfig) (name : String) : Bool :=
  cfg.skip_patterns.any (fun pat => fnmatchB name pat)

/-- `FileFinder._matches_pattern`: filename-only mode (no separator in the
pattern) is case-insensitive exact-or-glob match on the name; path mode
(separator present) matches the lower-cased relative path against the
lower-cased pattern, also trying the `*/` and `*/*/` prefixed variants. -/
def FileFinder.matches_pattern (filename pattern : String)
    (full_path base_path : Option String) : Bool :=
  if pattern.data.contains '/' || pattern.data.contains '\\' then
    match full_path, base_path with
    | some fp, some bp =>
      match relativeToStr fp bp with
      | some rel =>
        let rl := lowerStr rel
        let pl := lowerStr pattern
        fnmatchB rl pl || fnmatchB rl ("*/" ++ pl) || fnmatchB rl ("*/*/" ++ pl)
      | none => false
    | _, _ => false
  else
    let fl := lowerStr filename
    let pl := lowerStr pattern
    fl == pl || fnmatchB fl pl

/-- `FileFinder._search_directory`: walk one root (recursively or just its
top level), pruning `skip_directories` and the root's `exclude` set, then
keep files passing the skip-pattern, name-pattern and content filters.  The
`OSError`/`PermissionError` skip branches are identity on the modelled
filesystem (every file is statable and readable). -/
def FileFinder.search_directory (cfg : FinderConfig) (basePath : List String)
    (tree : FSTree) (pattern : String) (priority : Int) (recursive : Bool)
    (exclude : List String) (content_search : Option String) : List FileMatch :=
  let prune := fun (d : String) => cfg.skip_dirs.contains d || exclude.contains d
  let entries :=
    if recursive then walkTree prune tree
    else
      match tree with
      | .dir _ cs => topFiles cs
      | .file _ _ _ _ => []
  (entries.filter (fun e =>
      !FileFinder.should_skip cfg e.fileName &&
      FileFinder.matches_pattern e.fileName pattern
        (some (pathStr (basePath ++ e.dirComps ++ [e.fileName])))
        (some (pathStr basePath)) &&
      (match content_search with
       | none => true
       | some term => containsSub e.content term))).map
    (fun e => ⟨pathStr (basePath ++ e.dirComps ++ [e.fileName]), priority, e.mtime, e.size⟩)

/-- Home directory used by tilde expansion in the model. -/
def homeComps : List String := ["home", "user"]

/-- `Path(pattern).expanduser()`: a leading `~` component becomes the home
directory; other patterns are unchanged. -/
def expandUser (p : String) : String :=
  if p = "~" then pathStr homeComps
  else if startsChars ['~', '/'] p.data then pathStr homeComps ++ ⟨p.data.drop 1⟩
  else p

/-- Longest-existing-directory walk of `_extract_explicit_directory`: try
prefixes of the pattern's components, longest first, down to the filesystem
root, returning the first that resolves to an existing directory together
with the remaining sub-pattern (`"*"` when the whole pattern is a
directory). -/
def explicitGo (fs : FSTree) (comps : List String) (pattern : String) :
    Nat → Option (List String) × String
  | 0 =>
    (match resolveDir [] fs with
     | some _ => (some [], if comps.isEmpty then "*" else joinSep "/" comps)
     | none => (none, pattern))
  | j + 1 =>
    match resolveDir (comps.take (j + 1)) fs with
    | some _ =>
      let remaining := comps.drop (j + 1)
      (some (comps.take (j + 1)),
       if remaining.isEmpty then "*" else joinSep "/" remaining)
    | none => explicitGo fs comps pattern j

/-- `FileFinder._extract_explicit_directory`: only patterns starting with
`~` or `/` are considered; for those, the longest prefix of components that
is an existing directory becomes the explicit search root. -/
def FileFinder.extract_explicit_directory (fs : FSTree) (pattern : String) :
    Option (List String) × String :=
  if !startsWithChar pattern '~' && !startsWithChar pattern '/' then (none, pattern)
  else
    let comps := pathComps (expandUser pattern)
    explicitGo fs comps pattern comps.length

/-- `FileFinder.find_files`: the three branches of the source — explicit
`local_dir`, explicit directory prefix extracted from the pattern, or the
configured priority roots — each ending in the corresponding sort.
Configured roots that do not resolve to an existing directory are silently
skipped. -/
def FileFinder.find_files (cfg : FinderConfig) (fs : FSTree) (pattern : String)
    (content_search : Option String) (local_dir : Option (List String)) :
    List FileMatch :=
  match local_dir with
  | some ld =>
    (match resolveDir ld fs with
     | some t =>
       List.insertionSort dateDesc
         (FileFinder.search_directory cfg ld t pattern 0 true [] content_search)
     | none => [])
  | none =>
    match FileFinder.extract_explicit_directory fs pattern with
    | (some ed, fpat) =>
      (match resolveDir ed fs with
       | some t =>
         List.insertionSort dateDesc
           (FileFinder.search_directory cfg ed t fpat 0 true [] content_search)
       | none => [])
    | (none, _) =>
      let sorted_dirs := List.insertionSort prioLe cfg.search_dirs
      let collected := sorted_dirs.flatMap (fun sd =>
        match resolveDir sd.path fs with
        | some t =>
          FileFinder.search_directory cfg sd.path t pattern sd.priority
            sd.recursive sd.exclude content_search
        | none => [])
      List.insertionSort keyLe collected

/-! ## HistoryFinder (`filedetective/core/history.py`) -/

/-- `UTILITY_DOTFILE_PATTERNS` from the source. -/
def UTILITY_DOTFILE_PATTERNS : List String :=
  [".gitignore", ".gitattributes", ".env", ".env*", ".claude*", ".*local",
   ".editorconfig", ".prettierrc*", ".eslintrc*", ".nvmrc", ".python-version",
   ".tool-versions", ".dockerignore"]

/-- `HISTORY_SKIP_PATTERNS` from the source. -/
def HISTORY_SKIP_PATTERNS : List String :=
  ["*.db-wal", "*.db-shm", "*.lock", ".coverage", "*.egg-info", "*.log"]

/-- `HISTORY_SKIP_DIRS` from the source (a Python set; modelled as a list,
all uses below are order-insensitive membership or disjunction). -/
def HISTORY_SKIP_DIRS : List String :=
  [".git", ".venv", "venv", "__pycache__", "node_modules", ".pytest_cache",
   ".mypy_cache", ".ruff_cache", ".idea", ".vscode", ".tox", "dist", "build",
   "*.egg-info"]

/-- `HistoryFinder` state after `__init__`: the default skip sets merged
with the caller-supplied additions. -/
structure HistoryFinder where
  skip_dirs : List String
  skip_patterns : List String

/-- `HistoryFinder.__init__`. -/
def HistoryFinder.init (extra_dirs : List String) (extra_patterns : List String) :
    HistoryFinder :=
  ⟨HISTORY_SKIP_DIRS ++ extra_dirs, HISTORY_SKIP_PATTERNS ++ extra_patterns⟩

/-- `HistoryFinder._should_skip_dir`: direct membership in the skip set, or
a wildcard-bearing skip entry that glob-matches the name. -/
def HistoryFinder.should_skip_dir (hf : HistoryFinder) (dirname : String) : Bool :=
  hf.skip_dirs.contains dirname ||
    hf.skip_dirs.any (fun pat => pat.data.contains '*' && fnmatchB dirname pat)

/-- `HistoryFinder._is_utility_dotfile`. -/
def HistoryFinder.is_utility_dotfile (filename : String) : Bool :=
  UTILITY_DOTFILE_PATTERNS.any (fun pat => fnmatchB (lowerStr filename) (lowerStr pat))

/-- `HistoryFinder._should_skip_file`: skip-pattern match (case-insensitive),
then the dotfile rule (skip unless on the utility allowlist). -/
def HistoryFinder.should_skip_file (hf : HistoryFinder) (filename : String) : Bool :=
  hf.skip_patterns.any (fun pat => fnmatchB (lowerStr filename) (lowerStr pat)) ||
    (startsWithChar filename '.' && !HistoryFinder.is_utility_dotfile filename)

/-- `HistoryFinder._normalize_extension`: pass wildcard patterns through
(lower-cased); otherwise add a leading dot if missing and turn the result
into a lower-cased suffix glob. -/
def HistoryFinder.normalize_extension (ext : String) : String :=
  if ext.data.contains '*' || ext.data.contains '?' then lowerStr ext
  else
    let e := if startsWithChar ext '.' then ext else "." ++ ext
    lowerStr ("*" ++ e)

/-- `HistoryFinder._matches_filetypes`. -/
def HistoryFinder.matches_filetypes (filename : String) (patterns : List String) : Bool :=
  patterns.any (fun pat => fnmatchB (lowerStr filename) pat)

/-- `pathlib.Path(name).suffix`: the substring from the last dot, provided
that dot is neither the first nor the last character. -/
def pySuffix (name : String) : String :=
  let cs := name.data
  let revAfter := cs.reverse.takeWhile (fun c => c != '.')
  if revAfter.length == cs.length then ""
  else if revAfter.isEmpty then ""
  else if revAfter.length + 1 == cs.length then ""
  else ⟨'.' :: revAfter.reverse⟩

/-- `len(content.splitlines())` for newline-separated text. -/
def pyLinesLen (s : String) : Nat :=
  if s.data.isEmpty then 0
  else s.data.count '\n' + (if s.data.getLast? = some '\n' then 0 else 1)

/-- `HistoryEntry` dataclass.  The three git fields are populated only by
`_add_git_info`, which shells out to git and mutates already-selected
entries in place — it neither adds nor removes entries, so it is modelled
as not applied (fields stay `none`). -/
structure HistoryEntry where
  path : String
  relative_path : String
  modified_date : Int
  extension : String
  lines : Nat
  tokens : Nat
  git_status : Option String := none
  git_commit_relative : Option String := none
  git_commit_msg : Option String := none
deriving DecidableEq, Repr

/-- Descending modified date, the `sort(key=mtime, reverse=True)` order of
`find_recent`. -/
def dateDescH (a b : HistoryEntry) : Prop := b.modified_date ≤ a.modified_date

instance : DecidableRel dateDescH := fun a b => by unfold dateDescH; infer_instance

/-- `HistoryFinder._create_entry` (successful-read case; unreadable files
are dropped by the source, and every modelled file is readable).  The token
count delegates to the external tokenizer, passed in as `countTokens`. -/
def HistoryFinder.create_entry (countTokens : String → Nat) (dirPath : List String)
    (e : WalkEntry) : HistoryEntry :=
  { path := pathStr (dirPath ++ e.dirComps ++ [e.fileName])
    relative_path := joinSep "/" (e.dirComps ++ [e.fileName])
    modified_date := e.mtime
    extension := if pySuffix e.fileName = "" then "(none)" else pySuffix e.fileName
    lines := pyLinesLen e.content
    tokens := countTokens e.content }

/-- `HistoryFinder.find_recent`: walk the directory pruning
`_should_skip_dir` names, filter files by `_should_skip_file` and the
normalized filetype patterns (no filtering when `filetypes` is absent or
empty, matching Python truthiness), build entries, sort by modified date
descending and truncate to `count`. -/
def HistoryFinder.find_recent (hf : HistoryFinder) (countTokens : String → Nat)
    (fs : FSTree) (dirPath : List String) (count : Nat)
    (filetypes : Option (List String)) : List HistoryEntry :=
  match resolveDir dirPath fs with
  | none => []
  | some t =>
    let nft : Option (List String) :=
      match filetypes with
      | some (f :: rest) => some ((f :: rest).map HistoryFinder.normalize_extension)
      | _ => none
    let entries := (walkTree (HistoryFinder.should_skip_dir hf) t).filter (fun e =>
      !HistoryFinder.should_skip_file hf e.fileName &&
      (match nft with
       | none => true
       | some pats => HistoryFinder.matches_filetypes e.fileName pats))
    ((List.insertionSort dateDescH
        (entries.map (HistoryFinder.create_entry countTokens dirPath))).take count)

/-! ## JSON values and `json.dumps` (`ai_log_sync` serialization) -/

mutual
/-- A JSON value (the payloads `json.dumps` serializes in `models.py`). -/
inductive JVal where
  | jnull
  | jbool (b : Bool)
  | jnum (n : Int)
  | jstr (s : String)
  | jarr (xs : JArr)
  | jobj (kvs : JObj)

/-- JSON array spine. -/
inductive JArr where
  | nil
  | cons (v : JVal) (tl : JArr)

/-- JSON object spine (ordered key/value pairs). -/
inductive JObj where
  | nil
  | cons (k : String) (v : JVal) (tl : JObj)
end

/-- Build a JSON array from a list. -/
def JArr.ofList : List JVal → JArr
  | [] => .nil
  | v :: t => .cons v (JArr.ofList t)

/-- Build a JSON object from an ordered pair list. -/
def JObj.ofList : List (String × JVal) → JObj
  | [] => .nil
  | (k, v) :: t => .cons k v (JObj.ofList t)

/-- Python truthiness of a JSON value (`any(metadata.values())` in the
ChatGPT collector). -/
def jTruthy : JVal → Bool
  | .jnull => false
  | .jbool b => b
  | .jnum n => n != 0
  | .jstr s => !s.data.isEmpty
  | .jarr .nil => false
  | .jarr (.cons _ _) => true
  | .jobj .nil => false
  | .jobj (.cons _ _ _) => true

/-- Lexicographic code-point order on character lists (Python `str <`). -/
def charsLt : List Char → List Char → Bool
  | [], [] => false
  | [], _ :: _ => true
  | _ :: _, [] => false
  | a :: as, b :: bs => a.toNat < b.toNat || (a == b && charsLt as bs)

/-- Python string `<`. -/
def strLtB (a b : String) : Bool := charsLt a.data b.data

/-- Ordered insertion of a key/value pair (ascending key). -/
def jobjInsert (k : String) (v : JVal) : JObj → JObj
  | .nil => .cons k v .nil
  | .cons k' v' t =>
    if strLtB k k' then .cons k v (.cons k' v' t) else .cons k' v' (jobjInsert k v t)

/-- Sort an object's pairs by key (the `sort_keys=True` of `json.dumps`). -/
def jobjSort : JObj → JObj
  | .nil => .nil
  | .cons k v t => jobjInsert k v (jobjSort t)

mutual
/-- Recursively sort every object's keys inside a JSON value. -/
def sortKeysV : JVal → JVal
  | .jarr xs => .jarr (sortKeysA xs)
  | .jobj kvs => .jobj (jobjSort (sortKeysO kvs))
  | v => v

/-- `sortKeysV` over an array spine. -/
def sortKeysA : JArr → JArr
  | .nil => .nil
  | .cons v t => .cons (sortKeysV v) (sortKeysA t)

/-- `sortKeysV` over an object spine (values only; the key order itself is
handled by `jobjSort` above). -/
def sortKeysO : JObj → JObj
  | .nil => .nil
  | .cons k v t => .cons k (sortKeysV v) (sortKeysO t)
end

/-- Lower-case hexadecimal digit. -/
def hexDigit (n : Nat) : Char :=
  if n < 10 then Char.ofNat (48 + n) else Char.ofNat (87 + n % 16)

/-- Four-digit lower-case hex rendering (the `\uXXXX` escape payload). -/
def hex4 (n : Nat) : List Char :=
  [hexDigit (n / 4096 % 16), hexDigit (n / 256 % 16), hexDigit (n / 16 % 16),
   hexDigit (n % 16)]

/-- JSON string-character escaping with `ensure_ascii=True` (the
`json.dumps` default used by the source): printable ASCII passes through,
the two-character escapes are used where JSON defines them, and everything
else becomes `\uXXXX` (with a surrogate pair beyond the BMP). -/
def escChar (c : Char) : List Char :=
  if c = '"' then ['\\', '"']
  else if c = '\\' then ['\\', '\\']
  else if c = '\n' then ['\\', 'n']
  else if c = '\r' then ['\\', 'r']
  else if c = '\t' then ['\\', 't']
  else if c.toNat = 8 then ['\\', 'b']
  else if c.toNat = 12 then ['\\', 'f']
  else if 32 ≤ c.toNat ∧ c.toNat ≤ 126 then [c]
  else if c.toNat < 65536 then '\\' :: 'u' :: hex4 c.toNat
  else
    let v := c.toNat - 65536
    ('\\' :: 'u' :: hex4 (55296 + v / 1024)) ++ ('\\' :: 'u' :: hex4 (56320 + v % 1024))

/-- A serialized JSON string literal. -/
def jsonStr (s : String) : List Char := '"' :: (s.data.flatMap escChar ++ ['"'])

mutual
/-- Serialize a (key-sorted) JSON value with the default `json.dumps`
separators `", "` and `": "`. -/
def dumpJ : JVal → List Char
  | .jnull => "null".data
  | .jbool true => "true".data
  | .jbool false => "false".data
  | .jnum n => (intStr n).data
  | .jstr s => jsonStr s
  | .jarr xs => '[' :: (dumpArr xs ++ [']'])
  | .jobj kvs => Char.ofNat 123 :: (dumpObj kvs ++ [Char.ofNat 125])

/-- Comma-joined array elements. -/
def dumpArr : JArr → List Char
  | .nil => []
  | .cons v .nil => dumpJ v
  | .cons v (.cons w t) => dumpJ v ++ ',' :: ' ' :: dumpArr (.cons w t)

/-- Comma-joined `"key": value` pairs. -/
def dumpObj : JObj → List Char
  | .nil => []
  | .cons k v .nil => jsonStr k ++ ':' :: ' ' :: dumpJ v
  | .cons k v (.cons k' v' t) =>
    jsonStr k ++ ':' :: ' ' :: dumpJ v ++ ',' :: ' ' :: dumpObj (.cons k' v' t)
end

/-- `json.dumps(value, sort_keys=True)`. -/
def dumps (v : JVal) : String := ⟨dumpJ (sortKeysV v)⟩

/-! ## SHA-256 (`hashlib.sha256`), over byte lists -/

/-- Truncate to a 32-bit word. -/
def w32 (n : Nat) : Nat := n % 4294967296

/-- 32-bit right rotation. -/
def rotr (n x : Nat) : Nat := w32 ((x >>> n) ||| (x <<< (32 - n)))

/-- The eight 32-bit working variables of the SHA-256 compression state. -/
structure H8 where
  a : Nat
  b : Nat
  c : Nat
  d : Nat
  e : Nat
  f : Nat
  g : Nat
  h : Nat

/-- SHA-256 round constants (FIPS 180-4). -/
def sha256K : List Nat :=
  [1116352408, 1899447441, 3049323471, 3921009573, 961987163,
   1508970993, 2453635748, 2870763221, 3624381080, 310598401,
   607225278, 1426881987, 1925078388, 2162078206, 2614888103,
   3248222580, 3835390401, 4022224774, 264347078, 604807628,
   770255983, 1249150122, 1555081692, 1996064986, 2554220882,
   2821834349, 2952996808, 3210313671, 3336571891, 3584528711,
   113926993, 338241895, 666307205, 773529912, 1294757372,
   1396182291, 1695183700, 1986661051, 2177026350, 2456956037,
   2730485921, 2820302411, 3259730800, 3345764771, 3516065817,
   3600352804, 4094571909, 275423344, 430227734, 506948616,
   659060556, 883997877, 958139571, 1322822218, 1537002063,
   1747873779, 1955562222, 2024104815, 2227730452, 2361852424,
   2428436474, 2756734187, 3204031479, 3329325298]

/-- Message-schedule extension: appends the given number of scheduled words
to the initial sixteen. -/
def sched : Nat → List Nat → List Nat
  | 0, w => w
  | n + 1, w =>
    let t := w.length
    let g := fun (i : Nat) => w.getD (t - i) 0
    let s0 := (rotr 7 (g 15)) ^^^ (rotr 18 (g 15)) ^^^ ((g 15) >>> 3)
    let s1 := (rotr 17 (g 2)) ^^^ (rotr 19 (g 2)) ^^^ ((g 2) >>> 10)
    sched n (w ++ [w32 ((g 16) + s0 + (g 7) + s1)])

/-- The 64 compression rounds, consuming the round constants and the
message schedule in lock step. -/
def rounds : List Nat → List Nat → H8 → H8
  | [], _, st => st
  | _, [], st => st
  | k :: ks, w :: ws, st =>
    let s1 := (rotr 6 st.e) ^^^ (rotr 11 st.e) ^^^ (rotr 25 st.e)
    let ch := (st.e &&& st.f) ^^^ ((st.e ^^^ 4294967295) &&& st.g)
    let t1 := w32 (st.h + s1 + ch + k + w)
    let s0 := (rotr 2 st.a) ^^^ (rotr 13 st.a) ^^^ (rotr 22 st.a)
    let mj := (st.a &&& st.b) ^^^ (st.a &&& st.c) ^^^ (st.b &&& st.c)
    let t2 := w32 (s0 + mj)
    rounds ks ws ⟨w32 (t1 + t2), st.a, st.b, st.c, w32 (st.d + t1), st.e, st.f, st.g⟩

/-- SHA-256 initial hash value. -/
def sha256Init : H8 :=
  ⟨1779033703, 3144134277, 1013904242, 2773480762,
   1359893119, 2600822924, 528734635, 1541459225⟩

/-- Big-endian 32-bit word from four bytes of a block. -/
def bword (bytes : List Nat) (i : Nat) : Nat :=
  w32 (bytes.getD (4 * i) 0 * 16777216 + bytes.getD (4 * i + 1) 0 * 65536 +
       bytes.getD (4 * i + 2) 0 * 256 + bytes.getD (4 * i + 3) 0)

/-- The sixteen words of one 64-byte block. -/
def blockWords (bytes : List Nat) : List Nat := (List.range 16).map (bword bytes)

/-- One SHA-256 block compression, including the feed-forward addition. -/
def sha256Compress (st : H8) (block : List Nat) : H8 :=
  let r := rounds sha256K (sched 48 (blockWords block)) st
  ⟨w32 (st.a + r.a), w32 (st.b + r.b), w32 (st.c + r.c), w32 (st.d + r.d),
   w32 (st.e + r.e), w32 (st.f + r.f), w32 (st.g + r.g), w32 (st.h + r.h)⟩

/-- SHA-256 padding: `0x80`, zeros to 56 mod 64, then the bit length as a
big-endian 64-bit integer. -/
def padBytes (m : List Nat) : List Nat :=
  let padLen := (64 - ((m.length + 9) % 64)) % 64
  let bitLen := 8 * m.length
  m ++ 128 :: (List.replicate padLen 0 ++
    [(bitLen >>> 56) % 256, (bitLen >>> 48) % 256, (bitLen >>> 40) % 256,
     (bitLen >>> 32) % 256, (bitLen >>> 24) % 256, (bitLen >>> 16) % 256,
     (bitLen >>> 8) % 256, bitLen % 256])

/-- Fold the compression function over the given number of 64-byte blocks. -/
def sha256Blocks : Nat → List Nat → H8 → H8
  | 0, _, st => st
  | n + 1, bytes, st => sha256Blocks n (bytes.drop 64) (sha256Compress st (bytes.take 64))

/-- SHA-256 of a byte list, as the final state. -/
def sha256H (msg : List Nat) : H8 :=
  let p := padBytes msg
  sha256Blocks (p.length / 64) p sha256Init

/-- Big-endian bytes of a 32-bit word. -/
def bytesOfWord (x : Nat) : List Nat :=
  [(x >>> 24) % 256, (x >>> 16) % 256, (x >>> 8) % 256, x % 256]

/-- The eight state words in output order. -/
def wordsOfH (st : H8) : List Nat := [st.a, st.b, st.c, st.d, st.e, st.f, st.g, st.h]

/-- The 32-byte SHA-256 digest. -/
def sha256Bytes (msg : List Nat) : List Nat := (wordsOfH (sha256H msg)).flatMap bytesOfWord

/-- Two lower-case hex characters of a byte. -/
def hexByte (b : Nat) : List Char := [hexDigit (b / 16 % 16), hexDigit (b % 16)]

/-- `hashlib.sha256(x).hexdigest()` as a character list. -/
def sha256HexChars (msg : List Nat) : List Char := (sha256Bytes msg).flatMap hexByte

/-- UTF-8 bytes of a serialized JSON document.  The `dumps` output is pure
ASCII by construction (`ensure_ascii` escaping), where UTF-8 bytes coincide
with code points. -/
def strBytes (s : String) : List Nat := s.data.map Char.toNat

/-- `Message` dataclass: one normalized message. -/
structure Message where
  role : String
  content : String
  timestamp : Option Int := none
  id : Option String := none
  metadata : List (String × JVal) := []

/-- Optional string as a JSON value. -/
def optJStr : Option String → JVal
  | some s => .jstr s
  | none => .jnull

/-- `Message.to_dict` (the dict literal of the source, in literal key
order; key sorting happens inside `dumps`). -/
def Message.to_dict (m : Message) : JVal :=
  .jobj (JObj.ofList
    [("role", .jstr m.role),
     ("content", .jstr m.content),
     ("timestamp", match m.timestamp with | some t => .jstr (intStr t) | none => .jnull),
     ("id", optJStr m.id),
     ("metadata", .jobj (JObj.ofList m.metadata))])

/-- `Conversation` dataclass. -/
structure Conversation where
  id : String
  source : String
  native_id : String
  updated_at : Int
  created_at : Int
  messages : List Message := []
  title : Option String := none
  summary : Option String := none
  metadata : List (String × JVal) := []

/-- `Conversation.message_count` property. -/
def Conversation.message_count (c : Conversation) : Nat := c.messages.length

/-- The exact byte source of the content hash:
`json.dumps([m.to_dict() for m in messages], sort_keys=True, default=str)`. -/
def Conversation.serialized_messages (c : Conversation) : String :=
  dumps (.jarr (JArr.ofList (c.messages.map Message.to_dict)))

/-- `Conversation.content_hash` property: `"sha256:"` plus the first 16 hex
characters of the SHA-256 of the serialized ordered message list. -/
def Conversation.content_hash (c : Conversation) : String :=
  "sha256:" ++ ⟨(sha256HexChars (strBytes c.serialized_messages)).take 16⟩

/-- `IndexEntry` dataclass (`index.json` record; no message bodies). -/
structure IndexEntry where
  id : String
  source : String
  native_id : String
  updated_at : Int
  created_at : Int
  title : Option String
  message_count : Nat
  content_hash : String
  raw_path : String
deriving DecidableEq, Repr

/-- `IndexEntry.from_conversation`. -/
def IndexEntry.from_conversation (conv : Conversation) (raw_path : String) : IndexEntry :=
  { id := conv.id
    source := conv.source
    native_id := conv.native_id
    updated_at := conv.updated_at
    created_at := conv.created_at
    title := conv.title
    message_count := conv.message_count
    content_hash := conv.content_hash
    raw_path := raw_path }

/-- `MergeResult` dataclass. -/
structure MergeResult where
  action : String
  conversation_id : String
  reason : Option String := none
deriving DecidableEq, Repr

/-- Python `dict.get` on an association list (keys unique by construction;
lookup returns the first binding). -/
def dictGet {β : Type} (k : String) : List (String × β) → Option β
  | [] => none
  | (k', v) :: t => if k' = k then some v else dictGet k t

/-- Python `dict[k] = v`: replace the existing binding in place, else
append a new binding (insertion order). -/
def dictSet {β : Type} (k : String) (v : β) : List (String × β) → List (String × β)
  | [] => [(k, v)]
  | (k', v') :: t => if k' = k then (k, v) :: t else (k', v') :: dictSet k v t

/-- `Index` dataclass: the id-keyed entry mapping. -/
structure Index where
  entries : List (String × IndexEntry)
deriving DecidableEq

/-- `Index.merge`: the "fresher wins" merge.  The source mutates
`self.entries`; the model returns the result together with the new index
state. -/
def Index.merge (idx : Index) (conv : Conversation) (raw_path : String) :
    MergeResult × Index :=
  match dictGet conv.id idx.entries with
  | none =>
    (⟨"added", conv.id, none⟩,
     ⟨dictSet conv.id (IndexEntry.from_conversation conv raw_path) idx.entries⟩)
  | some existing =>
    let is_fresher := decide (existing.updated_at < conv.updated_at)
    let has_more_messages := decide (existing.message_count < conv.message_count)
    let content_changed := decide (conv.content_hash ≠ existing.content_hash)
    if is_fresher || has_more_messages || content_changed then
      let reason :=
        (if is_fresher then ["newer timestamp (" ++ intStr conv.updated_at ++ ")"] else []) ++
        (if has_more_messages then
          ["more messages (" ++ natStr conv.message_count ++ " > " ++
            natStr existing.message_count ++ ")"] else []) ++
        (if content_changed && !(is_fresher || has_more_messages) then
          ["content changed"] else [])
      (⟨"updated", conv.id, some (joinSep ", " reason)⟩,
       ⟨dictSet conv.id (IndexEntry.from_conversation conv raw_path) idx.entries⟩)
    else
      (⟨"skipped", conv.id, some "no changes detected"⟩, idx)

/-- One attachment record of a raw message's metadata. -/
structure RawAttachment where
  aid : Option String
  name : Option String
  mime_type : Option String
  size : Option Int

/-- One element of a raw message's `content.parts` array: a string, a dict
carrying an `image_url` key, or some other dict (rendered only through
Python `str()`, which the model approximates for the dict cases; every
claim exercises only string parts). -/
inductive RawPart where
  | str (s : String)
  | imgDict (url : String)
  | otherDict

/-- Python truthiness of a part (`[str(p) for p in parts if p]`); a
non-empty dict is truthy. -/
def partTruthy : RawPart → Bool
  | .str s => !s.data.isEmpty
  | .imgDict _ => true
  | .otherDict => true

/-- Python `str(p)` of a part (approximate repr for the dict cases). -/
def partAsStr : RawPart → String
  | .str s => s
  | .imgDict url => "\x7b'image_url': '" ++ url ++ "'\x7d"
  | .otherDict => "\x7b\x7d"

/-- The fields of a raw ChatGPT message node that the collector reads:
`author.role`, `content.content_type` (`none` models a missing key, which
defaults to `"text"`), `content.parts`, `content.text`,
`metadata.is_visually_hidden_from_conversation`, `metadata.model_slug`,
`metadata.attachments` (`none` = key absent), `create_time`, `id`. -/
structure RawMessage where
  author_role : Option String
  content_type : Option String := none
  parts : List RawPart := []
  text : Option String := none
  meta_hidden : Bool := false
  meta_model_slug : Option String := none
  meta_attachments : Option (List RawAttachment) := none
  create_time : Option Int := none
  mid : Option String := none

/-- One node of the conversation `mapping`. -/
structure ChatNode where
  message : Option RawMessage := none
  parent : Option String := none
  children : List String := []

/-- The message of a node, kept unless flagged
`is_visually_hidden_from_conversation` (the filter applied inside both
traversal loops of `_traverse_conversation_tree`). -/
def keepMsg (node : ChatNode) : List RawMessage :=
  match node.message with
  | some m => if m.meta_hidden then [] else [m]
  | none => []

/-- The leaf-to-root `while` loop of `_traverse_conversation_tree`, with
explicit fuel: one fuel unit per loop iteration, so `none` for every fuel
means the Python loop never exits.  The loop condition `while node_id:`
treats `None` and the empty string as false; a missing node breaks. -/
def traceBack (mapping : List (String × ChatNode)) :
    Option String → Nat → Option (List RawMessage)
  | _, 0 => none
  | none, _ + 1 => some []
  | some nid, fuel + 1 =>
    if nid = "" then some []
    else
      match dictGet nid mapping with
      | none => some []
      | some node =>
        match traceBack mapping node.parent fuel with
        | none => none
        | some rest => some (keepMsg node ++ rest)

/-- The root-to-leaf fallback `while` loop (depth-first, always taking the
last child), with explicit fuel as above. -/
def walkDown (mapping : List (String × ChatNode)) :
    Option String → Nat → Option (List RawMessage)
  | _, 0 => none
  | none, _ + 1 => some []
  | some cid, fuel + 1 =>
    if cid = "" then some []
    else
      match dictGet cid mapping with
      | none => some []
      | some node =>
        match node.children.getLast? with
        | none => some (keepMsg node)
        | some lastChild =>
          match walkDown mapping (some lastChild) fuel with
          | none => none
          | some rest => some (keepMsg node ++ rest)

/-- Root candidates: nodes whose `parent` is falsy (absent or empty). -/
def rootIds (mapping : List (String × ChatNode)) : List String :=
  (mapping.filter (fun kv =>
    match kv.2.parent with
    | none => true
    | some p => p = "")).map (·.1)

/-- The fallback branch of `_traverse_conversation_tree`: start the
last-child walk from the first root, or return `[]` when there is none. -/
def traverseFallback (mapping : List (String × ChatNode)) (fuel : Nat) :
    Option (List RawMessage) :=
  match rootIds mapping with
  | [] => some []
  | r :: _ => walkDown mapping (some r) fuel

/-- `_traverse_conversation_tree(mapping, current_node)`: trace back from a
truthy `current_node` and reverse into chronological order, else fall back
to the root walk. -/
def traverse_conversation_tree (mapping : List (String × ChatNode))
    (current_node : Option String) (fuel : Nat) : Option (List RawMessage) :=
  match current_node with
  | some cn =>
    if cn = "" then traverseFallback mapping fuel
    else (traceBack mapping (some cn) fuel).map List.reverse
  | none => traverseFallback mapping fuel

/-- Python whitespace for `str.strip()` (ASCII). -/
def isPyWs (c : Char) : Bool :=
  c == ' ' || c == '\n' || c == '\t' || c == '\r' || c.toNat == 11 || c.toNat == 12

/-- Python `str.strip()`. -/
def pyStrip (s : String) : String :=
  ⟨((s.data.dropWhile isPyWs).reverse.dropWhile isPyWs).reverse⟩

/-- The per-message body of the `_extract_messages` loop: role
normalization, content-type dispatch into text parts and metadata flags,
the metadata dict (whose duplicated `has_execution` literal key collapses
to one entry, as in Python), and the skip test
`if not content and not any(metadata.values()): continue`.
Attachment archiving reads the disk; `local_path` is modelled as `None`
(the `attachment_root is None` path of the source). -/
def processRaw (m : RawMessage) : Option Message :=
  let role := m.author_role
  let norm_role :=
    if role = some "user" then "user"
    else if role = some "assistant" || role = some "tool" then "assistant"
    else
      match role with
      | some r => if r = "" then "unknown" else r
      | none => "unknown"
  let content_type := m.content_type.getD "text"
  let atts :=
    match m.meta_attachments with
    | none => []
    | some l => l.map (fun a => JVal.jobj (JObj.ofList
        [("id", optJStr a.aid),
         ("name", optJStr a.name),
         ("mime_type", optJStr a.mime_type),
         ("size", match a.size with | some n => .jnum n | none => .jnull),
         ("local_path", .jnull)]))
  let text_parts : List String :=
    if content_type = "text" then
      (m.parts.filter partTruthy).map partAsStr
    else if content_type = "code" then
      ["```\n" ++ m.text.getD "" ++ "\n```"]
    else if content_type = "thoughts" || content_type = "reasoning_recap" then
      [m.text.getD ""]
    else if content_type = "execution_output" then
      ["Output: " ++ m.text.getD ""]
    else if content_type = "tether_quote" || content_type = "tether_browsing_display" then
      []
    else if content_type = "multimodal_text" then
      m.parts.filterMap (fun p =>
        match p with
        | .str s => some s
        | .imgDict url => some ("[IMAGE: " ++ url ++ "]")
        | .otherDict => none)
    else
      [m.text.getD ""]
  let has_code := content_type = "code"
  let has_thinking := content_type = "thoughts" || content_type = "reasoning_recap"
  let has_web_search :=
    content_type = "tether_quote" || content_type = "tether_browsing_display"
  let has_multimodal := content_type = "multimodal_text"
  let has_execution := content_type = "execution_output"
  let metaList : List (String × JVal) :=
    [("content_type", .jstr content_type),
     ("has_code", .jbool has_code),
     ("has_thinking", .jbool has_thinking),
     ("has_web_search", .jbool has_web_search),
     ("has_multimodal", .jbool has_multimodal),
     ("has_execution", .jbool has_execution),
     ("model", optJStr m.meta_model_slug),
     ("attachments", .jarr (JArr.ofList atts))]
  let content := pyStrip (joinSep "\n" text_parts)
  if content = "" && !(metaList.any (fun kv => jTruthy kv.2)) then none
  else
    some
      { role := norm_role
        content := content
        timestamp :=
          match m.create_time with
          | some t => if t = 0 then none else some t
          | none => none
        id := m.mid
        metadata := metaList }

/-- `_extract_messages(data)`: traverse the tree, then keep the processed
messages the loop appends. -/
def extract_messages (mapping : List (String × ChatNode))
    (current_node : Option String) (fuel : Nat) : Option (List Message) :=
  (traverse_conversation_tree mapping current_node fuel).map
    (fun raws => raws.filterMap processRaw)

/-- Sample message for the concrete witnesses. -/
def msgW : Message := { role := "user", content := "hello" }

/-- Sample conversation. -/
def convW : Conversation :=
  { id := "chatgpt:w", source := "chatgpt", native_id := "w",
    updated_at := 3, created_at := 1, messages := [msgW] }

/-- The same conversation re-exported with a fresher timestamp. -/
def convW2 : Conversation := { convW with updated_at := 5 }

/-- Index entry built from the sample conversation. -/
def entW : IndexEntry := IndexEntry.from_conversation convW "logs/chatgpt/w.json"

/-- Index holding the sample entry. -/
def idxW : Index := ⟨[("chatgpt:w", entW)]⟩

/-- A malformed mapping with a parent-pointer cycle: node `A`'s parent is
`B` and node `B`'s parent is `A`. -/
def cycMapping : List (String × ChatNode) :=
  [("A", { parent := some "B" }), ("B", { parent := some "A" })]

/-- A single visible node whose message has `content_type` `"text"` and an
empty `parts` array — no non-empty content part at all. -/
def emptyPartsMapping : List (String × ChatNode) :=
  [("n1", { message := some { author_role := some "user" } })]

/-- Filesystem with two single-file roots of equal recency. -/
def fsC5 : FSTree :=
  .dir "fsroot" (.cons (.dir "r1" (.cons (.file "a.txt" 10 1 "x") .nil))
    (.cons (.dir "r2" (.cons (.file "b.txt" 10 1 "y") .nil)) .nil))

/-- Configuration with the two roots at priorities 1 and 2. -/
def cfgC5 : FinderConfig :=
  { search_dirs := [⟨["r1"], 1, true, []⟩, ⟨["r2"], 2, true, []⟩],
    skip_dirs := [], skip_patterns := [] }

/-- All components of a path are well-formed names. -/
def validComps (l : List String) : Bool := l.all validName

/-- Filesystem with a skipped `node_modules` directory under the root. -/
def fs8 : FSTree :=
  .dir "fsroot" (.cons (.dir "r" (.cons (.file "a.py" 5 1 "x")
    (.cons (.dir "node_modules" (.cons (.file "x.js" 9 1 "y") .nil)) .nil))) .nil)

/-- Configuration searching root `r` and skipping `node_modules`. -/
def cfg8 : FinderConfig :=
  { search_dirs := [⟨["r"], 1, true, []⟩],
    skip_dirs := ["node_modules"], skip_patterns := [] }

/-- Default history finder. -/
def hf8 : HistoryFinder := HistoryFinder.init [] []

/-- The key identifying a walk entry inside its root: directory components
plus file name. -/
def entryKey (e : WalkEntry) : List String := e.dirComps ++ [e.fileName]

/-- Names of the regular-file children, in listing order. -/
def fileNames : FSForest → List String
  | .nil => []
  | .cons (.file n _ _ _) rest => n :: fileNames rest
  | .cons (.dir _ _) rest => fileNames rest

/-- Filesystem with a single root holding one file. -/
def fsC3 : FSTree :=
  .dir "fsroot" (.cons (.dir "r" (.cons (.file "a.txt" 1 1 "") .nil)) .nil)

/-- Configuration listing the same root twice (priorities 1 and 2). -/
def cfgC3 : FinderConfig :=
  { search_dirs := [⟨["r"], 1, true, []⟩, ⟨["r"], 2, true, []⟩],
    skip_dirs := [], skip_patterns := [] }

/-- Big-endian value of a byte list. -/
def btN : List Nat → Nat
  | [] => 0
  | b :: t => b * 256 ^ t.length + btN t

/-- The 64-bit value of the truncated digest: the first eight bytes of the
SHA-256 of the serialized message list — exactly the information the
16-hex-character `content_hash` stores. -/
def hashVal (c : Conversation) : Nat :=
  btN ((sha256Bytes (strBytes c.serialized_messages)).take 8)

/-- The i-th sample message: `i` repetitions of `a` (pairwise distinct). -/
def baseMsg (i : Fin 21) : Message :=
  { role := "user", content := ⟨List.replicate i.val 'a'⟩ }

/-- A conversation holding the 21 sample messages in the order given by a
permutation. -/
def convOf (σ : Equiv.Perm (Fin 21)) : Conversation :=
  { id := "chatgpt:pigeon", source := "chatgpt", native_id := "pigeon",
    updated_at := 0, created_at := 0,
    messages := List.ofFn (fun i => baseMsg (σ i)) }

/-- First message of the concrete reordering witness. -/
def msgA : Message := { role := "user", content := "a" }

/-- Second message of the concrete reordering witness. -/
def msgB : Message := { role := "assistant", content := "b" }

/-- Two-message conversation. -/
def convP1 : Conversation :=
  { id := "chatgpt:x", source := "chatgpt", native_id := "x",
    updated_at := 7, created_at := 1, messages := [msgA, msgB] }

/-- The same conversation with its two messages swapped. -/
def convP2 : Conversation := { convP1 with messages := [msgB, msgA] }

set_option maxRecDepth 100000 in
/-- FIPS 180-4 test vector, validating the SHA-256 embedding. -/
example :
    (⟨sha256HexChars (strBytes "abc")⟩ : String) =
      "ba7816bf8f01cfea414140de5dae2223b00361a396177a9cb410ff61f20015ad" := by
  decide

/-! ## Conversation data model (`ai_log_sync/models.py`) -/

/-! ## Index and merge (`ai_log_sync/index.py`) -/

/-! ## ChatGPT export collector (`collectors/chatgpt_export.py`) -/

/-! ## Dictionary lemmas -/

/-- Looking up the key just set returns the new value. -/
theorem dictGet_dictSet_self {β : Type} (k : String) (v : β) (l : List (String × β)) :
    dictGet k (dictSet k v l) = some v := by
  induction l with
  | nil => simp [dictSet, dictGet]
  | cons hd t ih =>
    obtain ⟨k', v'⟩ := hd
    by_cases h : k' = k <;> simp [dictSet, dictGet, h, ih]

/-- Setting one key leaves every other key's lookup unchanged. -/
theorem dictGet_dictSet_ne {β : Type} (k k' : String) (hk : k ≠ k') (v : β)
    (l : List (String × β)) : dictGet k (dictSet k' v l) = dictGet k l := by
  induction l with
  | nil => simp [dictSet, dictGet, Ne.symm hk]
  | cons hd t ih =>
    obtain ⟨k'', v''⟩ := hd
    by_cases h : k'' = k' <;> by_cases h2 : k'' = k <;>
      simp_all [dictSet, dictGet, Ne.symm hk]

/-! ## Claim C1: the merge decision table -/

/-- C1: for every conversation `c` and index `I`, if `I` has no entry for
`c.id` then `merge(c, p)` inserts an entry built from `c` and returns
action `"added"`; if an entry exists, the entry is replaced and the action
is `"updated"` exactly when `c.updated_at > existing.updated_at` or
`c.message_count > existing.message_count` or
`c.content_hash ≠ existing.content_hash`, with the reason listing the
fresher timestamp first, then message-count growth, and `"content changed"`
only when neither of the first two holds; otherwise the result is
`"skipped"` with reason `"no changes detected"` and the index is
untouched. -/
theorem merge_decision_table (idx : Index) (conv : Conversation) (p : String) :
    (dictGet conv.id idx.entries = none →
      (idx.merge conv p).1 = ⟨"added", conv.id, none⟩ ∧
      (idx.merge conv p).2.entries =
        dictSet conv.id (IndexEntry.from_conversation conv p) idx.entries) ∧
    ∀ e, dictGet conv.id idx.entries = some e →
      (((idx.merge conv p).1.action = "updated" ∧
        (idx.merge conv p).2.entries =
          dictSet conv.id (IndexEntry.from_conversation conv p) idx.entries) ↔
        (e.updated_at < conv.updated_at ∨ e.message_count < conv.message_count ∨
          conv.content_hash ≠ e.content_hash)) ∧
      ((e.updated_at < conv.updated_at ∨ e.message_count < conv.message_count ∨
          conv.content_hash ≠ e.content_hash) →
        (idx.merge conv p).1.action = "updated" ∧
        (idx.merge conv p).1.reason = some (joinSep ", "
          ((if e.updated_at < conv.updated_at then
              ["newer timestamp (" ++ intStr conv.updated_at ++ ")"] else []) ++
           (if e.message_count < conv.message_count then
              ["more messages (" ++ natStr conv.message_count ++ " > " ++
                natStr e.message_count ++ ")"] else []) ++
           (if conv.content_hash ≠ e.content_hash ∧
               ¬(e.updated_at < conv.updated_at ∨ e.message_count < conv.message_count) then
              ["content changed"] else [])))) ∧
      (¬(e.updated_at < conv.updated_at ∨ e.message_count < conv.message_count ∨
          conv.content_hash ≠ e.content_hash) →
        (idx.merge conv p).1 = ⟨"skipped", conv.id, some "no changes detected"⟩ ∧
        (idx.merge conv p).2 = idx) := by
  constructor
  · intro h
    simp [Index.merge, h]
  · intro e he
    by_cases h1 : e.updated_at < conv.updated_at <;>
      by_cases h2 : e.message_count < conv.message_count <;>
      by_cases h3 : conv.content_hash ≠ e.content_hash <;>
      simp [Index.merge, he, h1, h2, h3]

set_option maxRecDepth 100000 in
/-- Witness for C1: with an existing entry and only the timestamp fresher,
merge updates and the reason is exactly the fresher-timestamp text. -/
theorem merge_decision_table_witness :
    dictGet convW2.id idxW.entries = some entW ∧
    (Index.merge idxW convW2 "p").1.action = "updated" ∧
    (Index.merge idxW convW2 "p").2.entries =
      dictSet convW2.id (IndexEntry.from_conversation convW2 "p") idxW.entries ∧
    (Index.merge idxW convW2 "p").1.reason = some "newer timestamp (5)" := by
  have hget : dictGet convW2.id idxW.entries = some entW := by decide
  have h := (merge_decision_table idxW convW2 "p").2 entW hget
  have hcond : entW.updated_at < convW2.updated_at ∨
      entW.message_count < convW2.message_count ∨
      convW2.content_hash ≠ entW.content_hash := by
    left; decide
  refine ⟨hget, (h.2.1 hcond).1, (h.1.mpr hcond).2, ?_⟩
  refine (h.2.1 hcond).2.trans ?_
  have h1 : entW.updated_at < convW2.updated_at := by decide
  have h2 : ¬ entW.message_count < convW2.message_count := by decide
  rw [if_pos h1, if_neg h2, if_neg (by simp [h1])]
  decide

/-! ## Claim C6: merge is idempotent for unchanged input -/

/-- C6: starting from an index with no entry for the conversation's id,
merging the same `Conversation` twice yields `"added"` then `"skipped"`. -/
theorem merge_idempotent_unchanged (idx : Index) (conv : Conversation) (p p' : String)
    (h : dictGet conv.id idx.entries = none) :
    ((idx.merge conv p).1.action = "added") ∧
    (((idx.merge conv p).2.merge conv p').1.action = "skipped") := by
  have hfst : (idx.merge conv p) =
      (⟨"added", conv.id, none⟩,
       ⟨dictSet conv.id (IndexEntry.from_conversation conv p) idx.entries⟩) := by
    simp [Index.merge, h]
  refine ⟨by rw [hfst], ?_⟩
  rw [hfst]
  have hget : dictGet conv.id
      (dictSet conv.id (IndexEntry.from_conversation conv p) idx.entries) =
      some (IndexEntry.from_conversation conv p) := dictGet_dictSet_self _ _ _
  simp only [Index.merge, hget]
  simp [IndexEntry.from_conversation, Conversation.message_count]

/-- Witness for C6 at a concrete conversation and the empty index. -/
theorem merge_idempotent_unchanged_witness :
    dictGet convW.id (⟨[]⟩ : Index).entries = none ∧
    ((Index.merge ⟨[]⟩ convW "p").1.action = "added") ∧
    (((Index.merge ⟨[]⟩ convW "p").2.merge convW "p").1.action = "skipped") := by
  have h : dictGet convW.id (⟨[]⟩ : Index).entries = none := rfl
  exact ⟨h, merge_idempotent_unchanged ⟨[]⟩ convW "p" "p" h⟩

/-! ## Claim C10: merge only touches the merged conversation's entry -/

/-- C10: `merge(c, p)` leaves the entry of every id other than `c.id`
unchanged, and when it returns `"skipped"` the whole index is exactly as
before the call. -/
theorem merge_frame (idx : Index) (conv : Conversation) (p k : String)
    (hk : k ≠ conv.id) :
    dictGet k (idx.merge conv p).2.entries = dictGet k idx.entries ∧
    ((idx.merge conv p).1.action = "skipped" → (idx.merge conv p).2 = idx) := by
  cases hdg : dictGet conv.id idx.entries with
  | none =>
    simp [Index.merge, hdg, dictGet_dictSet_ne k conv.id hk]
  | some e =>
    by_cases h1 : e.updated_at < conv.updated_at <;>
      by_cases h2 : e.message_count < conv.message_count <;>
      by_cases h3 : conv.content_hash ≠ e.content_hash <;>
      simp [Index.merge, hdg, h1, h2, h3, dictGet_dictSet_ne k conv.id hk]

set_option maxRecDepth 100000 in
/-- Witness for C10: merging the fresher sample conversation leaves an
unrelated key's (absent) entry unchanged. -/
theorem merge_frame_witness :
    ("other" : String) ≠ convW2.id ∧
    dictGet "other" (Index.merge idxW convW2 "p").2.entries =
      dictGet "other" idxW.entries := by
  have hk : ("other" : String) ≠ convW2.id := by decide
  exact ⟨hk, (merge_frame idxW convW2 "p" "other" hk).1⟩

/-! ## Claim C2: traversal on a cyclic mapping -/

/-- On the cyclic mapping, the leaf-to-root loop never exits: for every
fuel (loop-iteration bound) the trace from either node is still running. -/
theorem traceBack_cyc (fuel : Nat) :
    traceBack cycMapping (some "A") fuel = none ∧
    traceBack cycMapping (some "B") fuel = none := by
  induction fuel with
  | zero => exact ⟨rfl, rfl⟩
  | succ n ih =>
    have hA : dictGet "A" cycMapping = some { parent := some "B" } := rfl
    have hB : dictGet "B" cycMapping = some { parent := some "A" } := rfl
    constructor <;> simp [traceBack, hA, hB, ih.1, ih.2]

/-- C2 is violated by the source: `_traverse_conversation_tree` has no
visited-node tracking (unlike the repository's own
`reference/conversation_parser.py` and `reference/normalize_conversations.py`,
which keep a `visited` set), so on the cyclic mapping with
`current_node="A"` the `while` loop never terminates — for every iteration
bound the embedded loop is still running. -/
theorem traverse_cycle_diverges :
    ∀ fuel : Nat, traverse_conversation_tree cycMapping (some "A") fuel = none := by
  intro fuel
  have h := (traceBack_cyc fuel).1
  simp [traverse_conversation_tree, h]

/-! ## Claim C4: empty-content messages survive `_extract_messages` -/

set_option maxRecDepth 100000 in
/-- C4 is violated by the source: the node above contributes a `Message`
with empty content, because the metadata dict always contains the truthy
`content_type` entry, so `not any(metadata.values())` is always false and
the `# Skip empty messages` check never fires for it. -/
theorem extract_messages_emits_empty_content :
    (extract_messages emptyPartsMapping (some "n1") 5).map
      (fun ms => ms.map (fun m => (m.role, m.content))) = some [("user", "")] := by
  decide

/-! ## Claim C9: filename-mode matching is case-insensitive -/

/-- Lowering a character cannot produce or consume a path separator:
for `c` one of `/` (47) or `\` (92), `pyLower a = c` iff `a = c`. -/
theorem pyLower_sep (a c : Char) (hc : c.toNat = 47 ∨ c.toNat = 92) :
    pyLower a = c ↔ a = c := by
  unfold pyLower
  split
  · rename_i h
    have hv : (a.toNat + 32).isValidChar := by
      left
      have := h.2
      omega
    have htn : (Char.ofNat (a.toNat + 32)).toNat = a.toNat + 32 := by
      rw [Char.ofNat, dif_pos hv]
      rfl
    constructor
    · intro he
      exfalso
      rw [he] at htn
      omega
    · intro he
      exfalso
      rw [he] at h
      omega
  · exact Iff.rfl

/-- Separator membership is invariant under lowering. -/
theorem mem_map_pyLower_sep (l : List Char) (c : Char)
    (hc : c.toNat = 47 ∨ c.toNat = 92) : c ∈ l.map pyLower ↔ c ∈ l := by
  simp only [List.mem_map]
  constructor
  · rintro ⟨a, ha, hep⟩
    rw [← (pyLower_sep a c hc).mp hep]
    exact ha
  · intro h
    exact ⟨c, h, (pyLower_sep c c hc).mpr rfl⟩

/-- `List.contains` on characters agrees with membership. -/
theorem charsContains_iff (l : List Char) (c : Char) :
    l.contains c = true ↔ c ∈ l := by
  induction l with
  | nil => simp
  | cons a t ih => simp [List.contains] at ih ⊢

/-- C9: for every file name and separator-free pattern, `_matches_pattern`
is case-insensitive — replacing the name and the pattern by any strings
with the same lower-casing leaves the result unchanged; in particular
`matches("FILE.PY", "*.py")` and `matches("file.py", "*.PY")` both hold. -/
theorem matches_pattern_case_insensitive :
    (∀ (name pat name' pat' : String) (fp bp : Option String),
      pat.data.contains '/' = false → pat.data.contains '\\' = false →
      lowerStr name' = lowerStr name → lowerStr pat' = lowerStr pat →
      FileFinder.matches_pattern name' pat' fp bp =
        FileFinder.matches_pattern name pat fp bp) ∧
    FileFinder.matches_pattern "FILE.PY" "*.py" none none = true ∧
    FileFinder.matches_pattern "file.py" "*.PY" none none = true := by
  refine ⟨?_, by decide, by decide⟩
  intro name pat name' pat' fp bp h1 h2 hn hp
  have hpd : pat'.data.map pyLower = pat.data.map pyLower := congrArg String.data hp
  have h1' : pat'.data.contains '/' = false := by
    rw [← Bool.not_eq_true]
    intro hmem
    have : '/' ∈ pat.data := by
      rw [← mem_map_pyLower_sep pat.data '/' (Or.inl rfl), ← hpd,
        mem_map_pyLower_sep pat'.data '/' (Or.inl rfl)]
      exact (charsContains_iff _ _).mp hmem
    rw [(charsContains_iff pat.data '/').mpr this] at h1
    exact Bool.true_eq_false.mp h1
  have h2' : pat'.data.contains '\\' = false := by
    rw [← Bool.not_eq_true]
    intro hmem
    have : '\\' ∈ pat.data := by
      rw [← mem_map_pyLower_sep pat.data '\\' (Or.inr rfl), ← hpd,
        mem_map_pyLower_sep pat'.data '\\' (Or.inr rfl)]
      exact (charsContains_iff _ _).mp hmem
    rw [(charsContains_iff pat.data '\\').mpr this] at h2
    exact Bool.true_eq_false.mp h2
  simp only [FileFinder.matches_pattern, h1, h2, h1', h2', Bool.or_self,
    Bool.or_false, Bool.false_or, if_false, Bool.false_eq_true, ite_false]
  rw [hn, hp]

/-- Witness for C9: "FILE.py" and "file.PY" are case variants of each
other, so the theorem equates their match results, and the concrete
matches hold. -/
theorem matches_pattern_case_insensitive_witness :
    lowerStr "file.PY" = lowerStr "FILE.py" ∧
    FileFinder.matches_pattern "file.PY" "*.Py" none none =
      FileFinder.matches_pattern "FILE.py" "*.pY" none none := by
  refine ⟨by decide, ?_⟩
  exact matches_pattern_case_insensitive.1 "FILE.py" "*.pY" "file.PY" "*.Py"
    none none (by decide) (by decide) (by decide) (by decide)

/-! ## Claim C5: find_files output ordering -/

/-- `keyLe` is transitive. -/
theorem keyLe_trans (a b c : FileMatch) (h1 : keyLe a b) (h2 : keyLe b c) :
    keyLe a c := by
  unfold keyLe at *
  omega

/-- `keyLe` is total. -/
theorem keyLe_total (a b : FileMatch) : keyLe a b ∨ keyLe b a := by
  unfold keyLe
  omega

/-- Every match produced by `_search_directory` carries the priority of
its search root. -/
theorem search_directory_priority (cfg : FinderConfig) (basePath : List String)
    (t : FSTree) (pattern : String) (prio : Int) (rec : Bool)
    (excl : List String) (cs : Option String) :
    ∀ m ∈ FileFinder.search_directory cfg basePath t pattern prio rec excl cs,
      m.priority = prio := by
  intro m hm
  simp only [FileFinder.search_directory, List.mem_map] at hm
  obtain ⟨e, _, hgm⟩ := hm
  rw [← hgm]

/-- A date-descending sort of priority-0 matches is sorted by the combined
priority-then-recency order. -/
theorem pairwise_keyLe_of_dateSort (l : List FileMatch)
    (h0 : ∀ m ∈ l, m.priority = 0) :
    List.Pairwise keyLe (List.insertionSort dateDesc l) := by
  haveI : IsTotal FileMatch dateDesc := ⟨fun a b => le_total b.modified_date a.modified_date⟩
  haveI : IsTrans FileMatch dateDesc := ⟨fun _ _ _ h1 h2 => le_trans h2 h1⟩
  have hs := List.sorted_insertionSort dateDesc l
  have hperm := List.perm_insertionSort dateDesc l
  refine hs.imp_of_mem ?_
  intro a b ha hb hd
  have hpa : a.priority = 0 := h0 a (hperm.subset ha)
  have hpb : b.priority = 0 := h0 b (hperm.subset hb)
  exact Or.inr ⟨by rw [hpa, hpb], hd⟩

/-- C5: every `find_files` result list is sorted ascending by priority
rank and, among equal priorities, descending by modified time; and for two
roots of priorities 1 and 2 with one equal-recency match each, the
priority-1 match comes first. -/
theorem find_files_sorted_by_priority_then_recency :
    (∀ (cfg : FinderConfig) (fs : FSTree) (pattern : String) (cs : Option String)
       (ld : Option (List String)),
      List.Pairwise keyLe (FileFinder.find_files cfg fs pattern cs ld)) ∧
    (FileFinder.find_files cfgC5 fsC5 "*" none none).map
      (fun m => (m.path, m.priority)) = [("/r1/a.txt", 1), ("/r2/b.txt", 2)] := by
  constructor
  · intro cfg fs pattern cs ld
    haveI : IsTotal FileMatch keyLe := ⟨keyLe_total⟩
    haveI : IsTrans FileMatch keyLe := ⟨keyLe_trans⟩
    unfold FileFinder.find_files
    split
    · split
      · exact pairwise_keyLe_of_dateSort _
          (search_directory_priority _ _ _ _ _ _ _ _)
      · exact List.Pairwise.nil
    · split
      · split
        · exact pairwise_keyLe_of_dateSort _
            (search_directory_priority _ _ _ _ _ _ _ _)
        · exact List.Pairwise.nil
      · exact List.sorted_insertionSort keyLe _
  · decide

/-! ## Path injectivity and walk lemmas -/

/-- Unfolding of `validName`. -/
theorem validName_spec (s : String) (h : validName s = true) :
    s.data ≠ [] ∧ '/' ∉ s.data := by
  unfold validName at h
  simp only [Bool.and_eq_true, Bool.not_eq_true'] at h
  constructor
  · intro hd
    rw [hd] at h
    simp at h
  · intro hm
    rw [(charsContains_iff _ _).mpr hm] at h
    simp at h

/-- `List.contains` on strings agrees with membership. -/
theorem strContains_iff (l : List String) (s : String) :
    l.contains s = true ↔ s ∈ l := by
  induction l with
  | nil => simp
  | cons a t ih => simp [List.contains] at ih ⊢

/-- Cancellation for a separator-free segment followed by a separator. -/
theorem sepFree_append_eq (x : List Char) :
    ∀ (y r1 r2 : List Char), '/' ∉ x → '/' ∉ y →
      x ++ '/' :: r1 = y ++ '/' :: r2 → x = y ∧ r1 = r2 := by
  induction x with
  | nil =>
    intro y r1 r2 _ hy h
    cases y with
    | nil => simpa using h
    | cons b bs =>
      exfalso
      simp only [List.nil_append, List.cons_append, List.cons.injEq] at h
      exact hy (h.1 ▸ List.mem_cons_self b bs)
  | cons a as ih =>
    intro y r1 r2 hx hy h
    cases y with
    | nil =>
      exfalso
      simp only [List.cons_append, List.nil_append, List.cons.injEq] at h
      exact hx (h.1 ▸ List.mem_cons_self a as)
    | cons b bs =>
      simp only [List.cons_append, List.cons.injEq] at h
      obtain ⟨hab, htl⟩ := h
      have hx' : '/' ∉ as := fun hm => hx (List.mem_cons_of_mem a hm)
      have hy' : '/' ∉ bs := fun hm => hy (List.mem_cons_of_mem b hm)
      obtain ⟨h1, h2⟩ := ih bs r1 r2 hx' hy' htl
      exact ⟨by rw [hab, h1], h2⟩

/-- Joining well-formed components with `/` is injective. -/
theorem joinChars_inj : ∀ (l1 l2 : List (List Char)),
    (∀ x ∈ l1, x ≠ [] ∧ '/' ∉ x) → (∀ x ∈ l2, x ≠ [] ∧ '/' ∉ x) →
    joinChars l1 = joinChars l2 → l1 = l2
  | [], [], _, _, _ => rfl
  | [], y :: t2, _, h2, he => by
    exfalso
    cases t2 with
    | nil => exact (h2 y (by simp)).1 (by simpa [joinChars] using he.symm)
    | cons z t =>
      have := congrArg List.length he
      simp [joinChars] at this
      omega
  | x :: t1, [], h1, _, he => by
    exfalso
    cases t1 with
    | nil => exact (h1 x (by simp)).1 (by simpa [joinChars] using he)
    | cons z t =>
      have := congrArg List.length he
      simp [joinChars] at this
  | [x], [y], _, _, he => by
    simp only [joinChars] at he
    rw [he]
  | [x], y :: z :: t2, h1, _, he => by
    exfalso
    have hmem : '/' ∈ joinChars (y :: z :: t2) := by
      show '/' ∈ y ++ '/' :: joinChars (z :: t2)
      simp
    rw [← he] at hmem
    exact (h1 x (by simp)).2 (by simpa [joinChars] using hmem)
  | x :: z :: t1, [y], _, h2, he => by
    exfalso
    have hmem : '/' ∈ joinChars (x :: z :: t1) := by
      show '/' ∈ x ++ '/' :: joinChars (z :: t1)
      simp
    rw [he] at hmem
    exact (h2 y (by simp)).2 (by simpa [joinChars] using hmem)
  | x :: x2 :: t1, y :: y2 :: t2, h1, h2, he => by
    have hx := h1 x (by simp)
    have hy := h2 y (by simp)
    have he' : x ++ '/' :: joinChars (x2 :: t1) = y ++ '/' :: joinChars (y2 :: t2) := he
    obtain ⟨hxy, hr⟩ := sepFree_append_eq x y _ _ hx.2 hy.2 he'
    have htl := joinChars_inj (x2 :: t1) (y2 :: t2)
      (fun a ha => h1 a (List.mem_cons_of_mem x ha))
      (fun a ha => h2 a (List.mem_cons_of_mem y ha)) hr
    rw [hxy, htl]

/-- `String.data` is injective. -/
theorem strData_inj : Function.Injective String.data := by
  intro s t h
  cases s
  cases t
  exact congrArg String.mk h

/-- Absolute path strings built from well-formed components are injective. -/
theorem pathStr_inj (l1 l2 : List String) (h1 : validComps l1 = true)
    (h2 : validComps l2 = true) (he : pathStr l1 = pathStr l2) : l1 = l2 := by
  have hd : ('/' :: joinChars (l1.map String.data)) =
      ('/' :: joinChars (l2.map String.data)) := congrArg String.data he
  have hj : joinChars (l1.map String.data) = joinChars (l2.map String.data) :=
    (List.cons.injEq _ _ _ _ ▸ hd).2
  have hcond1 : ∀ x ∈ l1.map String.data, x ≠ [] ∧ '/' ∉ x := by
    intro x hx
    obtain ⟨s, hs, rfl⟩ := List.mem_map.mp hx
    exact validName_spec s (by
      have := (List.all_eq_true.mp h1) s hs
      simpa using this)
  have hcond2 : ∀ x ∈ l2.map String.data, x ≠ [] ∧ '/' ∉ x := by
    intro x hx
    obtain ⟨s, hs, rfl⟩ := List.mem_map.mp hx
    exact validName_spec s (by
      have := (List.all_eq_true.mp h2) s hs
      simpa using this)
  have hmaps := joinChars_inj _ _ hcond1 hcond2 hj
  exact List.map_injective_iff.mpr strData_inj hmaps

/-- Entries of `topFiles` sit directly in the walked directory. -/
theorem topFiles_dirComps : ∀ (cs : FSForest) (e : WalkEntry),
    e ∈ topFiles cs → e.dirComps = []
  | .nil, e => by simp [topFiles]
  | .cons (.file n m sz ct) rest, e => by
    intro he
    rcases List.mem_cons.mp he with he | he
    · rw [he]
    · exact topFiles_dirComps rest e he
  | .cons (.dir n sub) rest, e => fun he => topFiles_dirComps rest e he

/-- Entries of `topFiles` of a well-formed listing have well-formed names. -/
theorem topFiles_valid : ∀ (cs : FSForest), validForest cs = true →
    ∀ e ∈ topFiles cs, validName e.fileName = true
  | .nil, _, e => by simp [topFiles]
  | .cons (.file n m sz ct) rest, hv, e => by
    intro he
    have hv' := hv
    unfold validForest at hv'
    simp only [Bool.and_eq_true] at hv'
    rcases List.mem_cons.mp he with he | he
    · rw [he]
      exact hv'.1
    · exact topFiles_valid rest hv'.2 e he
  | .cons (.dir n sub) rest, hv, e => by
    intro he
    have hv' := hv
    unfold validForest at hv'
    simp only [Bool.and_eq_true] at hv'
    exact topFiles_valid rest hv'.2 e he

mutual
/-- Every walk entry of a well-formed tree has unpruned, well-formed
directory components and a well-formed file name. -/
theorem walkTree_entries (skip : String → Bool) :
    ∀ (t : FSTree), validTree t = true → ∀ e ∈ walkTree skip t,
      (∀ d ∈ e.dirComps, skip d = false ∧ validName d = true) ∧
        validName e.fileName = true
  | .file n m sz ct, _, e => by simp [walkTree]
  | .dir n cs, hv, e => by
    intro he
    have hv' := hv
    unfold validTree at hv'
    simp only [Bool.and_eq_true] at hv'
    rcases List.mem_append.mp he with he | he
    · refine ⟨?_, topFiles_valid cs hv'.1.2 e he⟩
      rw [topFiles_dirComps cs e he]
      simp
    · exact walkSubdirs_entries skip cs hv'.1.2 e he

/-- Forest form of `walkTree_entries`. -/
theorem walkSubdirs_entries (skip : String → Bool) :
    ∀ (cs : FSForest), validForest cs = true → ∀ e ∈ walkSubdirs skip cs,
      (∀ d ∈ e.dirComps, skip d = false ∧ validName d = true) ∧
        validName e.fileName = true
  | .nil, _, e => by simp [walkSubdirs]
  | .cons (.file n m sz ct) rest, hv, e => by
    intro he
    have hv' := hv
    unfold validForest at hv'
    simp only [Bool.and_eq_true] at hv'
    exact walkSubdirs_entries skip rest hv'.2 e he
  | .cons (.dir n sub) rest, hv, e => by
    intro he
    have hv' := hv
    unfold validForest at hv'
    simp only [Bool.and_eq_true] at hv'
    rcases List.mem_append.mp he with he | he
    · by_cases hskip : skip n
      · rw [if_pos hskip] at he
        simp at he
      · rw [if_neg hskip] at he
        obtain ⟨e', he', rfl⟩ := List.mem_map.mp he
        have hrec := walkTree_entries skip (.dir n sub) hv'.1 e' he'
        have hvn : validName n = true := by
          have := hv'.1
          unfold validTree at this
          simp only [Bool.and_eq_true] at this
          exact this.1.1
        refine ⟨?_, hrec.2⟩
        intro d hd
        rcases List.mem_cons.mp hd with rfl | hd
        · exact ⟨by simpa using hskip, hvn⟩
        · exact hrec.1 d hd
    · exact walkSubdirs_entries skip rest hv'.2 e he
end

/-- Children found by name in a well-formed listing are well formed. -/
theorem findChild_valid : ∀ (cs : FSForest) (n : String) (c : FSTree),
    validForest cs = true → findChild n cs = some c → validTree c = true
  | .nil, n, c => by simp [findChild]
  | .cons hd rest, n, c => by
    intro hv hf
    have hv' := hv
    unfold validForest at hv'
    simp only [Bool.and_eq_true] at hv'
    unfold findChild at hf
    by_cases hn : hd.name = n
    · rw [if_pos hn] at hf
      injection hf with hf
      rw [← hf]
      exact hv'.1
    · rw [if_neg hn] at hf
      exact findChild_valid rest n c hv'.2 hf

/-- Resolution preserves well-formedness. -/
theorem resolve_valid : ∀ (comps : List String) (t t' : FSTree),
    validTree t = true → resolve comps t = some t' → validTree t' = true
  | [], t, t' => by
    intro hv h
    injection h with h
    rw [← h]
    exact hv
  | n :: rest, .file nm m sz ct, t' => by simp [resolve]
  | n :: rest, .dir nm cs, t' => by
    intro hv h
    have hv' := hv
    unfold validTree at hv'
    simp only [Bool.and_eq_true] at hv'
    unfold resolve at h
    cases hfc : findChild n cs with
    | none => rw [hfc] at h; cases h
    | some c =>
      rw [hfc] at h
      exact resolve_valid rest c t' (findChild_valid cs n c hv'.1.2 hfc) h

/-- `resolveDir` is `resolve` restricted to directories. -/
theorem resolveDir_eq (comps : List String) (t t' : FSTree)
    (h : resolveDir comps t = some t') : resolve comps t = some t' := by
  unfold resolveDir at h
  cases hr : resolve comps t with
  | none => rw [hr] at h; cases h
  | some u =>
    rw [hr] at h
    cases u with
    | file n m sz ct => cases h
    | dir n cs => injection h with h; rw [← h]

/-- Every `_search_directory` match comes from a walk entry whose directory
components are unpruned (in particular not in `skip_directories`) and well
formed, with the path assembled from root, components and file name. -/
theorem search_directory_paths (cfg : FinderConfig) (basePath : List String)
    (t : FSTree) (pattern : String) (prio : Int) (rec : Bool)
    (excl : List String) (cs : Option String) (hv : validTree t = true) :
    ∀ m ∈ FileFinder.search_directory cfg basePath t pattern prio rec excl cs,
      ∃ e : WalkEntry,
        (∀ d ∈ e.dirComps, cfg.skip_dirs.contains d = false ∧ validName d = true) ∧
        validName e.fileName = true ∧
        m.path = pathStr (basePath ++ e.dirComps ++ [e.fileName]) := by
  intro m hm
  simp only [FileFinder.search_directory, List.mem_map, List.mem_filter] at hm
  obtain ⟨e, ⟨he, _⟩, hme⟩ := hm
  have hprops : (∀ d ∈ e.dirComps,
      (cfg.skip_dirs.contains d || excl.contains d) = false ∧ validName d = true) ∧
      validName e.fileName = true := by
    cases rec with
    | true =>
      simp only [if_true] at he
      exact walkTree_entries _ t hv e he
    | false =>
      simp only [Bool.false_eq_true, if_false] at he
      cases t with
      | file n m' sz ct => simp at he
      | dir n cs' =>
        have hv' := hv
        unfold validTree at hv'
        simp only [Bool.and_eq_true] at hv'
        refine ⟨?_, topFiles_valid cs' hv'.1.2 e he⟩
        rw [topFiles_dirComps cs' e he]
        simp
  refine ⟨e, ?_, hprops.2, by rw [← hme]⟩
  intro d hd
  exact ⟨(Bool.or_eq_false_iff.mp (hprops.1 d hd).1).1, (hprops.1 d hd).2⟩

/-! ## Claim C8: files under skipped directories never appear -/

/-- C8 (amended): a file lying (relative to the walked root) below a
directory whose name is in the skip-directory set never appears in the walk
output: neither among `find_files` matches (any content search; any pattern
that stays in the configured-roots branch, i.e. does not start with `~` or
`/` — the counterexample below shows the original unrestricted claim fails
for explicit-directory patterns) nor among `find_recent` results (any count
and filetype filter). -/
theorem skipped_dir_files_never_in_output :
    (∀ (cfg : FinderConfig) (fs : FSTree) (pattern : String) (cs : Option String)
       (sd : SearchDir) (ds : List String) (fname : String) (d : String),
      cfg.search_dirs = [sd] →
      startsWithChar pattern '~' = false → startsWithChar pattern '/' = false →
      validTree fs = true → validComps sd.path = true →
      validComps ds = true → validName fname = true →
      d ∈ ds → d ∈ cfg.skip_dirs →
      pathStr (sd.path ++ ds ++ [fname]) ∉
        (FileFinder.find_files cfg fs pattern cs none).map FileMatch.path) ∧
    (∀ (hf : HistoryFinder) (ct : String → Nat) (fs : FSTree)
       (dirPath : List String) (count : Nat) (fts : Option (List String))
       (ds : List String) (fname : String) (d : String),
      validTree fs = true → validComps dirPath = true →
      validComps ds = true → validName fname = true →
      d ∈ ds → d ∈ hf.skip_dirs →
      pathStr (dirPath ++ ds ++ [fname]) ∉
        (HistoryFinder.find_recent hf ct fs dirPath count fts).map
          HistoryEntry.path) := by
  constructor
  · intro cfg fs pattern cs sd ds fname d hsd hp1 hp2 hv hvroot hvds hvfn hdmem hdskip hmem
    have hee : FileFinder.extract_explicit_directory fs pattern = (none, pattern) := by
      simp [FileFinder.extract_explicit_directory, hp1, hp2]
    unfold FileFinder.find_files at hmem
    rw [hee] at hmem
    rw [hsd] at hmem
    have hone : List.insertionSort prioLe [sd] = [sd] := rfl
    rw [hone] at hmem
    simp only [List.flatMap_cons, List.flatMap_nil, List.append_nil] at hmem
    cases hres : resolveDir sd.path fs with
    | none =>
      rw [hres] at hmem
      simp at hmem
    | some t =>
      rw [hres] at hmem
      obtain ⟨m, hmS, hpathm⟩ := List.mem_map.mp hmem
      have hm : m ∈ FileFinder.search_directory cfg sd.path t pattern sd.priority
          sd.recursive sd.exclude cs := (List.perm_insertionSort keyLe _).subset hmS
      have hvt : validTree t = true :=
        resolve_valid sd.path fs t hv (resolveDir_eq _ _ _ hres)
      obtain ⟨e, hdirs, hfn, hpe⟩ :=
        search_directory_paths cfg sd.path t pattern sd.priority sd.recursive
          sd.exclude cs hvt m hm
      have heq : pathStr (sd.path ++ ds ++ [fname]) =
          pathStr (sd.path ++ e.dirComps ++ [e.fileName]) := hpathm.symm.trans hpe
      have hvalid1 : validComps (sd.path ++ ds ++ [fname]) = true := by
        unfold validComps at hvroot hvds ⊢
        simp [List.all_append, hvroot, hvds, hvfn]
      have hvalid2 : validComps (sd.path ++ e.dirComps ++ [e.fileName]) = true := by
        unfold validComps at hvroot ⊢
        have hall : e.dirComps.all validName = true :=
          List.all_eq_true.mpr (fun d' hd' => by simp [(hdirs d' hd').2])
        simp [List.all_append, hvroot, hall, hfn]
      have hcomps := pathStr_inj _ _ hvalid1 hvalid2 heq
      rw [List.append_assoc, List.append_assoc] at hcomps
      have htail := List.append_cancel_left hcomps
      rw [← List.concat_eq_append, ← List.concat_eq_append] at htail
      have hds : ds = e.dirComps := (List.concat_inj.mp htail).1
      have hcontains := (hdirs d (hds ▸ hdmem)).1
      rw [(strContains_iff _ _).mpr hdskip] at hcontains
      simp at hcontains
  · intro hf ct fs dirPath count fts ds fname d hv hvroot hvds hvfn hdmem hdskip hmem
    unfold HistoryFinder.find_recent at hmem
    cases hres : resolveDir dirPath fs with
    | none =>
      rw [hres] at hmem
      simp at hmem
    | some t =>
      rw [hres] at hmem
      obtain ⟨en, hen, hpathm⟩ := List.mem_map.mp hmem
      have hen2 := (List.take_sublist count _).subset hen
      have hen3 := (List.perm_insertionSort dateDescH _).subset hen2
      obtain ⟨e, he, rfl⟩ := List.mem_map.mp hen3
      have he2 : e ∈ walkTree (HistoryFinder.should_skip_dir hf) t :=
        (List.mem_filter.mp he).1
      have hvt : validTree t = true :=
        resolve_valid dirPath fs t hv (resolveDir_eq _ _ _ hres)
      have hprops := walkTree_entries _ t hvt e he2
      have heq : pathStr (dirPath ++ ds ++ [fname]) =
          pathStr (dirPath ++ e.dirComps ++ [e.fileName]) := hpathm.symm
      have hvalid1 : validComps (dirPath ++ ds ++ [fname]) = true := by
        unfold validComps at hvroot hvds ⊢
        simp [List.all_append, hvroot, hvds, hvfn]
      have hvalid2 : validComps (dirPath ++ e.dirComps ++ [e.fileName]) = true := by
        unfold validComps at hvroot ⊢
        have hall : e.dirComps.all validName = true :=
          List.all_eq_true.mpr (fun d' hd' => by simp [(hprops.1 d' hd').2])
        simp [List.all_append, hvroot, hall, hprops.2]
      have hcomps := pathStr_inj _ _ hvalid1 hvalid2 heq
      rw [List.append_assoc, List.append_assoc] at hcomps
      have htail := List.append_cancel_left hcomps
      rw [← List.concat_eq_append, ← List.concat_eq_append] at htail
      have hds : ds = e.dirComps := (List.concat_inj.mp htail).1
      have hskip_false := (hprops.1 d (hds ▸ hdmem)).1
      have hskip_true : HistoryFinder.should_skip_dir hf d = true := by
        unfold HistoryFinder.should_skip_dir
        rw [(strContains_iff _ _).mpr hdskip]
        simp
      rw [hskip_true] at hskip_false
      simp at hskip_false

/-- Witness for C8: `/r/node_modules/x.js` appears neither in the
`find_files` output nor in the `find_recent` output on the sample tree. -/
theorem skipped_dir_files_never_in_output_witness :
    validTree fs8 = true ∧
    pathStr (["r"] ++ ["node_modules"] ++ ["x.js"]) ∉
      (FileFinder.find_files cfg8 fs8 "*" none none).map FileMatch.path ∧
    pathStr (["r"] ++ ["node_modules"] ++ ["x.js"]) ∉
      (HistoryFinder.find_recent hf8 (fun _ => 0) fs8 ["r"] 10 none).map
        HistoryEntry.path := by
  refine ⟨by decide, ?_, ?_⟩
  · exact skipped_dir_files_never_in_output.1 cfg8 fs8 "*" none
      ⟨["r"], 1, true, []⟩ ["node_modules"] "x.js" "node_modules" rfl
      (by decide) (by decide) (by decide) (by decide) (by decide) (by decide)
      (by decide) (by decide)
  · exact skipped_dir_files_never_in_output.2 hf8 (fun _ => 0) fs8 ["r"] 10 none
      ["node_modules"] "x.js" "node_modules" (by decide) (by decide) (by decide)
      (by decide) (by decide) (by decide)

/-- C8 counterexample to the original universal ("for any pattern") claim:
the pattern `/r/node_modules/*` starts with `/`, so
`_extract_explicit_directory` re-roots the walk inside the skip-named
`node_modules` directory itself (pruning applies only to subdirectories of
a walked root, never to the root), and `find_files` returns the file below
it even though `node_modules` is in the configured skip-directory set. -/
theorem find_files_skipped_dir_counterexample :
    "node_modules" ∈ cfg8.skip_dirs ∧
    (FileFinder.find_files cfg8 fs8 "/r/node_modules/*" none none).map
      FileMatch.path = [pathStr (["r"] ++ ["node_modules"] ++ ["x.js"])] := by
  decide

/-! ## Walk output uniqueness (claim C3) -/

/-- File names are a sublist of all sibling names. -/
theorem fileNames_sublist : ∀ (cs : FSForest), (fileNames cs).Sublist (forestNames cs)
  | .nil => List.Sublist.refl []
  | .cons (.file n m sz ct) rest => by
    show (n :: fileNames rest).Sublist (n :: forestNames rest)
    exact (fileNames_sublist rest).cons₂ n
  | .cons (.dir n sub) rest => by
    show (fileNames rest).Sublist (n :: forestNames rest)
    exact (fileNames_sublist rest).cons n

/-- The keys of the top-level files are their singleton names. -/
theorem topFiles_keys : ∀ (cs : FSForest),
    (topFiles cs).map entryKey = (fileNames cs).map (fun n => [n])
  | .nil => rfl
  | .cons (.file n m sz ct) rest => by
    show entryKey ⟨[], n, m, sz, ct⟩ :: (topFiles rest).map entryKey = _
    rw [topFiles_keys rest]
    rfl
  | .cons (.dir n sub) rest => topFiles_keys rest

/-- Every entry produced below some subdirectory has that subdirectory's
name as its first directory component, a sibling name. -/
theorem walkSubdirs_key_shape (skip : String → Bool) : ∀ (cs : FSForest),
    ∀ e ∈ walkSubdirs skip cs, ∃ n rest, e.dirComps = n :: rest ∧ n ∈ forestNames cs
  | .nil => by simp [walkSubdirs]
  | .cons (.file n m sz ct) rest => by
    intro e he
    obtain ⟨n', r', hr, hm⟩ := walkSubdirs_key_shape skip rest e he
    exact ⟨n', r', hr, List.mem_cons_of_mem _ hm⟩
  | .cons (.dir n sub) rest => by
    intro e he
    rcases List.mem_append.mp he with he | he
    · by_cases hskip : skip n
      · rw [if_pos hskip] at he
        simp at he
      · rw [if_neg hskip] at he
        obtain ⟨e', _, rfl⟩ := List.mem_map.mp he
        exact ⟨n, e'.dirComps, rfl, List.mem_cons_self _ _⟩
    · obtain ⟨n', r', hr, hm⟩ := walkSubdirs_key_shape skip rest e he
      exact ⟨n', r', hr, List.mem_cons_of_mem _ hm⟩

mutual
/-- The walk of a well-formed tree emits pairwise distinct keys: no file
position is visited twice. -/
theorem walkTree_keys_nodup (skip : String → Bool) :
    ∀ (t : FSTree), validTree t = true →
      ((walkTree skip t).map entryKey).Nodup
  | .file n m sz ct, _ => by simp [walkTree]
  | .dir n cs, hv => by
    have hv' := hv
    unfold validTree at hv'
    simp only [Bool.and_eq_true] at hv'
    have hnames : (forestNames cs).Nodup := of_decide_eq_true hv'.2
    show ((topFiles cs ++ walkSubdirs skip cs).map entryKey).Nodup
    rw [List.map_append]
    refine List.Nodup.append ?_ ?_ ?_
    · rw [topFiles_keys]
      exact ((fileNames_sublist cs).nodup hnames).map
        (fun a b h => (List.cons.injEq _ _ _ _ ▸ h).1)
    · exact walkSubdirs_keys_nodup skip cs hv'.1.2 hnames
    · intro k hk1 hk2
      obtain ⟨n', _, hkn⟩ := List.mem_map.mp ((topFiles_keys cs) ▸ hk1)
      obtain ⟨e, he, hke⟩ := List.mem_map.mp hk2
      obtain ⟨n'', r'', hr, _⟩ := walkSubdirs_key_shape skip cs e he
      have h1 : k.length = 1 := by rw [← hkn]; rfl
      have h2 : k.length ≥ 2 := by
        rw [← hke]
        unfold entryKey
        rw [hr]
        simp
      omega

/-- Forest form of `walkTree_keys_nodup`. -/
theorem walkSubdirs_keys_nodup (skip : String → Bool) :
    ∀ (cs : FSForest), validForest cs = true → (forestNames cs).Nodup →
      ((walkSubdirs skip cs).map entryKey).Nodup
  | .nil, _, _ => by simp [walkSubdirs]
  | .cons (.file n m sz ct) rest, hv, hnd => by
    have hv' := hv
    unfold validForest at hv'
    simp only [Bool.and_eq_true] at hv'
    exact walkSubdirs_keys_nodup skip rest hv'.2 (List.nodup_cons.mp hnd).2
  | .cons (.dir n sub) rest, hv, hnd => by
    have hv' := hv
    unfold validForest at hv'
    simp only [Bool.and_eq_true] at hv'
    have hnd' : n ∉ forestNames rest ∧ (forestNames rest).Nodup :=
      List.nodup_cons.mp hnd
    show (((if skip n then [] else (walkTree skip (.dir n sub)).map
        (fun (e : WalkEntry) => { e with dirComps := n :: e.dirComps })) ++
        walkSubdirs skip rest).map entryKey).Nodup
    rw [List.map_append]
    refine List.Nodup.append ?_ (walkSubdirs_keys_nodup skip rest hv'.2 hnd'.2) ?_
    · by_cases hskip : skip n
      · rw [if_pos hskip]
        simp
      · rw [if_neg hskip, List.map_map]
        have hcomp : (entryKey ∘ fun (e : WalkEntry) => { e with dirComps := n :: e.dirComps }) =
            (fun k => n :: k) ∘ entryKey := by
          funext e
          rfl
        rw [hcomp, ← List.map_map]
        exact (walkTree_keys_nodup skip (.dir n sub) hv'.1).map
          (fun a b h => (List.cons.injEq _ _ _ _ ▸ h).2)
    · intro k hk1 hk2
      by_cases hskip : skip n
      · rw [if_pos hskip] at hk1
        simp at hk1
      · rw [if_neg hskip] at hk1
        obtain ⟨e', he', hke'⟩ := List.mem_map.mp hk1
        obtain ⟨e0, _, rfl⟩ := List.mem_map.mp he'
        obtain ⟨e, he, hke⟩ := List.mem_map.mp hk2
        obtain ⟨n'', r'', hr, hmem⟩ := walkSubdirs_key_shape skip rest e he
        have hhead1 : k.head? = some n := by
          rw [← hke']
          rfl
        have hhead2 : k.head? = some n'' := by
          rw [← hke]
          unfold entryKey
          rw [hr]
          rfl
        rw [hhead1] at hhead2
        injection hhead2 with hnn
        exact hnd'.1 (hnn ▸ hmem)
end

/-- Distinct walk keys give distinct path strings (well-formed names). -/
theorem pathList_nodup (basePath : List String) (l : List WalkEntry)
    (hbase : validComps basePath = true)
    (hkeys : (l.map entryKey).Nodup)
    (hvalid : ∀ e ∈ l, (∀ d ∈ e.dirComps, validName d = true) ∧
      validName e.fileName = true) :
    (l.map (fun e => pathStr (basePath ++ e.dirComps ++ [e.fileName]))).Nodup := by
  refine List.Nodup.map_on ?_ hkeys.of_map
  intro e1 h1 e2 h2 heq
  have hv1 := hvalid e1 h1
  have hv2 := hvalid e2 h2
  have hva : validComps (basePath ++ e1.dirComps ++ [e1.fileName]) = true := by
    unfold validComps at hbase ⊢
    have hall : e1.dirComps.all validName = true :=
      List.all_eq_true.mpr (fun d hd => by simp [hv1.1 d hd])
    simp [List.all_append, hbase, hall, hv1.2]
  have hvb : validComps (basePath ++ e2.dirComps ++ [e2.fileName]) = true := by
    unfold validComps at hbase ⊢
    have hall : e2.dirComps.all validName = true :=
      List.all_eq_true.mpr (fun d hd => by simp [hv2.1 d hd])
    simp [List.all_append, hbase, hall, hv2.2]
  have hfull := pathStr_inj _ _ hva hvb heq
  rw [List.append_assoc, List.append_assoc] at hfull
  have hkey : entryKey e1 = entryKey e2 := List.append_cancel_left hfull
  exact List.inj_on_of_nodup_map hkeys h1 h2 hkey

/-- Projecting paths out of the `FileMatch` construction. -/
theorem map_path_filter (basePath : List String) (prio : Int)
    (l : List WalkEntry) (pred : WalkEntry → Bool) :
    (((l.filter pred).map (fun (e : WalkEntry) =>
        (⟨pathStr (basePath ++ e.dirComps ++ [e.fileName]), prio, e.mtime, e.size⟩ :
          FileMatch))).map FileMatch.path) =
      (l.filter pred).map
        (fun e => pathStr (basePath ++ e.dirComps ++ [e.fileName])) := by
  rw [List.map_map]
  rfl

/-- One `_search_directory` call never reports the same path twice. -/
theorem search_directory_nodup (cfg : FinderConfig) (basePath : List String)
    (t : FSTree) (pattern : String) (prio : Int) (rec : Bool)
    (excl : List String) (cs : Option String)
    (hv : validTree t = true) (hbase : validComps basePath = true) :
    ((FileFinder.search_directory cfg basePath t pattern prio rec excl cs).map
      FileMatch.path).Nodup := by
  unfold FileFinder.search_directory
  rw [map_path_filter]
  cases rec with
  | true =>
    simp only [if_true]
    have hkeys := walkTree_keys_nodup
      (fun d => cfg.skip_dirs.contains d || excl.contains d) t hv
    have hval := walkTree_entries
      (fun d => cfg.skip_dirs.contains d || excl.contains d) t hv
    refine pathList_nodup basePath _ hbase
      (((List.filter_sublist _).map entryKey).nodup hkeys) ?_
    intro e he
    have hm := (List.filter_sublist _).subset he
    exact ⟨fun d hd => ((hval e hm).1 d hd).2, (hval e hm).2⟩
  | false =>
    simp only [Bool.false_eq_true, if_false]
    cases t with
    | file n m sz ct => simp
    | dir n cs' =>
      have hv' := hv
      unfold validTree at hv'
      simp only [Bool.and_eq_true] at hv'
      have hnames : (forestNames cs').Nodup := of_decide_eq_true hv'.2
      have hkeys : ((topFiles cs').map entryKey).Nodup := by
        rw [topFiles_keys]
        exact ((fileNames_sublist cs').nodup hnames).map
          (fun a b h => (List.cons.injEq _ _ _ _ ▸ h).1)
      refine pathList_nodup basePath _ hbase
        (((List.filter_sublist _).map entryKey).nodup hkeys) ?_
      intro e he
      have hm := (List.filter_sublist _).subset he
      refine ⟨?_, topFiles_valid cs' hv'.1.2 e hm⟩
      rw [topFiles_dirComps cs' e hm]
      simp

/-! ## Claim C3: uniqueness of result paths -/

/-- C3 as amended: when no two configured roots can reach a common path
(no duplicated roots, no root nested in another) — in particular for a
single root — `find_files` over the configured roots returns no two
matches with the same path.  (The unamended claim fails for duplicate or
overlapping roots; see the counterexample.) -/
theorem find_files_unique_paths_of_disjoint_roots
    (cfg : FinderConfig) (fs : FSTree) (pattern : String) (cs : Option String)
    (hv : validTree fs = true)
    (hroots : ∀ sd ∈ cfg.search_dirs, validComps sd.path = true)
    (hdisj : List.Pairwise
      (fun a b : SearchDir => ∀ x y : List String, a.path ++ x ≠ b.path ++ y)
      cfg.search_dirs)
    (hp1 : startsWithChar pattern '~' = false)
    (hp2 : startsWithChar pattern '/' = false) :
    ((FileFinder.find_files cfg fs pattern cs none).map FileMatch.path).Nodup := by
  have hee : FileFinder.extract_explicit_directory fs pattern = (none, pattern) := by
    simp [FileFinder.extract_explicit_directory, hp1, hp2]
  unfold FileFinder.find_files
  rw [hee]
  have hpermS := List.perm_insertionSort prioLe cfg.search_dirs
  rw [List.Perm.nodup_iff ((List.perm_insertionSort keyLe _).map FileMatch.path)]
  rw [List.map_flatMap]
  refine List.nodup_flatMap.mpr ⟨?_, ?_⟩
  · intro sd hm
    have hmem : sd ∈ cfg.search_dirs := hpermS.subset hm
    cases hres : resolveDir sd.path fs with
    | none => simp
    | some t =>
      simpa using search_directory_nodup cfg sd.path t pattern sd.priority
        sd.recursive sd.exclude cs
        (resolve_valid sd.path fs t hv (resolveDir_eq _ _ _ hres))
        (hroots sd hmem)
  · have hsymm : ∀ {a b : SearchDir},
        (∀ x y : List String, a.path ++ x ≠ b.path ++ y) →
        (∀ x y : List String, b.path ++ x ≠ a.path ++ y) :=
      fun h x y he => h y x he.symm
    have hdisj' := (hpermS.pairwise_iff hsymm).mpr hdisj
    refine hdisj'.imp_of_mem ?_
    intro a b ha hb hR
    intro p hpa hpb
    simp only at hpa hpb
    have hva : validComps a.path = true := hroots a (hpermS.subset ha)
    have hvb : validComps b.path = true := hroots b (hpermS.subset hb)
    cases hra : resolveDir a.path fs with
    | none =>
      rw [hra] at hpa
      simp at hpa
    | some ta =>
      rw [hra] at hpa
      obtain ⟨ma, hma, hpae⟩ := List.mem_map.mp hpa
      obtain ⟨ea, hda, hfa, hpa2⟩ := search_directory_paths cfg a.path ta pattern
        a.priority a.recursive a.exclude cs
        (resolve_valid a.path fs ta hv (resolveDir_eq _ _ _ hra)) ma hma
      cases hrb : resolveDir b.path fs with
      | none =>
        rw [hrb] at hpb
        simp at hpb
      | some tb =>
        rw [hrb] at hpb
        obtain ⟨mb, hmb, hpbe⟩ := List.mem_map.mp hpb
        obtain ⟨eb, hdb, hfb, hpb2⟩ := search_directory_paths cfg b.path tb pattern
          b.priority b.recursive b.exclude cs
          (resolve_valid b.path fs tb hv (resolveDir_eq _ _ _ hrb)) mb hmb
        have heq : pathStr (a.path ++ ea.dirComps ++ [ea.fileName]) =
            pathStr (b.path ++ eb.dirComps ++ [eb.fileName]) := by
          rw [← hpa2, ← hpb2, hpae, hpbe]
        have hvfa : validComps (a.path ++ ea.dirComps ++ [ea.fileName]) = true := by
          unfold validComps at hva ⊢
          have hall : ea.dirComps.all validName = true :=
            List.all_eq_true.mpr (fun d hd => by simp [(hda d hd).2])
          simp [List.all_append, hva, hall, hfa]
        have hvfb : validComps (b.path ++ eb.dirComps ++ [eb.fileName]) = true := by
          unfold validComps at hvb ⊢
          have hall : eb.dirComps.all validName = true :=
            List.all_eq_true.mpr (fun d hd => by simp [(hdb d hd).2])
          simp [List.all_append, hvb, hall, hfb]
        have hfull := pathStr_inj _ _ hvfa hvfb heq
        rw [List.append_assoc, List.append_assoc] at hfull
        exact hR _ _ hfull

/-- C3 as stated is false: with a duplicated search root, `find_files`
(which never deduplicates) returns two `FileMatch` records with the same
path. -/
theorem find_files_duplicate_root_counterexample :
    (FileFinder.find_files cfgC3 fsC3 "*" none none).map FileMatch.path =
      ["/r/a.txt", "/r/a.txt"] ∧
    ¬ ((FileFinder.find_files cfgC3 fsC3 "*" none none).map FileMatch.path).Nodup := by
  constructor <;> decide

/-- Witness for the amended C3 at the two-disjoint-roots configuration. -/
theorem find_files_unique_paths_witness :
    ((FileFinder.find_files cfgC5 fsC5 "*" none none).map FileMatch.path).Nodup := by
  refine find_files_unique_paths_of_disjoint_roots cfgC5 fsC5 "*" none
    (by decide) ?_ ?_ (by decide) (by decide)
  · intro sd hsd
    simp only [cfgC5, List.mem_cons, List.not_mem_nil, or_false] at hsd
    rcases hsd with rfl | rfl <;> decide
  · refine List.Pairwise.cons ?_ (List.Pairwise.cons (by simp) List.Pairwise.nil)
    intro b hb x y he
    simp only [cfgC5, List.mem_cons, List.not_mem_nil, or_false] at hb
    subst hb
    injection he with h1 _
    exact absurd h1 (by decide)

/-! ## Claim C7: order sensitivity of content_hash -/

/-- Bounded byte lists have bounded big-endian values. -/
theorem btN_lt : ∀ (l : List Nat), (∀ b ∈ l, b < 256) → btN l < 256 ^ l.length := by
  intro l
  induction l with
  | nil => simp [btN]
  | cons b t ih =>
    intro hb
    have hbt : btN t < 256 ^ t.length := ih (fun x hx => hb x (List.mem_cons_of_mem b hx))
    have hbb : b < 256 := hb b (List.mem_cons_self b t)
    have h1 : btN (b :: t) < (b + 1) * 256 ^ t.length := by
      unfold btN
      have := hbt
      nlinarith [hbt]
    calc btN (b :: t) < (b + 1) * 256 ^ t.length := h1
      _ ≤ 256 * 256 ^ t.length := Nat.mul_le_mul_right _ (by omega)
      _ = 256 ^ (b :: t).length := by rw [List.length_cons, pow_succ]; ring

/-- Same-length bounded byte lists with equal values are equal. -/
theorem btN_inj : ∀ (l1 l2 : List Nat), l1.length = l2.length →
    (∀ b ∈ l1, b < 256) → (∀ b ∈ l2, b < 256) → btN l1 = btN l2 → l1 = l2 := by
  intro l1
  induction l1 with
  | nil =>
    intro l2 hl _ _ _
    cases l2 with
    | nil => rfl
    | cons b t => simp at hl
  | cons b t ih =>
    intro l2 hl hb1 hb2 he
    cases l2 with
    | nil => simp at hl
    | cons b2 t2 =>
      have hlt : t.length = t2.length := by simpa using hl
      have hrt : btN t < 256 ^ t.length :=
        btN_lt t (fun x hx => hb1 x (List.mem_cons_of_mem b hx))
      have hrt2 : btN t2 < 256 ^ t.length := by
        rw [hlt]
        exact btN_lt t2 (fun x hx => hb2 x (List.mem_cons_of_mem b2 hx))
      have he' : b * 256 ^ t.length + btN t = b2 * 256 ^ t.length + btN t2 := by
        have := he
        unfold btN at this
        rw [hlt] at this ⊢
        exact this
      have hbb : b = b2 := by
        rcases Nat.lt_trichotomy b b2 with h | h | h
        · exfalso
          have : b * 256 ^ t.length + btN t < b2 * 256 ^ t.length + btN t2 := by
            nlinarith
          omega
        · exact h
        · exfalso
          have : b2 * 256 ^ t.length + btN t2 < b * 256 ^ t.length + btN t := by
            nlinarith
          omega
      have hrest : btN t = btN t2 := by
        rw [hbb] at he'
        omega
      have := ih t2 hlt (fun x hx => hb1 x (List.mem_cons_of_mem b hx))
        (fun x hx => hb2 x (List.mem_cons_of_mem b2 hx)) hrest
      rw [hbb, this]

/-- Digest word bytes are bytes. -/
theorem bytesOfWord_lt (x : Nat) : ∀ b ∈ bytesOfWord x, b < 256 := by
  intro b hb
  simp only [bytesOfWord, List.mem_cons, List.not_mem_nil, or_false] at hb
  rcases hb with rfl | rfl | rfl | rfl <;> exact Nat.mod_lt _ (by norm_num)

/-- SHA-256 digest bytes are bytes. -/
theorem sha256Bytes_lt (m : List Nat) : ∀ b ∈ sha256Bytes m, b < 256 := by
  intro b hb
  obtain ⟨w, _, hbw⟩ := List.mem_flatMap.mp hb
  exact bytesOfWord_lt w b hbw

/-- The digest is 32 bytes long. -/
theorem sha256Bytes_length (m : List Nat) : (sha256Bytes m).length = 32 := by
  simp [sha256Bytes, wordsOfH, bytesOfWord]

/-- Truncating a hex dump to `2k` characters is the hex dump of the first
`k` bytes. -/
theorem take_flatMap_hexByte : ∀ (l : List Nat) (k : Nat),
    (l.flatMap hexByte).take (2 * k) = (l.take k).flatMap hexByte := by
  intro l
  induction l with
  | nil => simp
  | cons b t ih =>
    intro k
    cases k with
    | zero => simp
    | succ k' =>
      rw [show 2 * (k' + 1) = 2 * k' + 2 from by ring]
      rw [List.flatMap_cons, List.take_append_eq_append_take]
      have h1 : (hexByte b).take (2 * k' + 2) = hexByte b :=
        List.take_of_length_le (by rw [show (hexByte b).length = 2 from rfl]; omega)
      have h2 : 2 * k' + 2 - (hexByte b).length = 2 * k' := rfl
      rw [h1, h2, ih k', List.take_succ_cons, List.flatMap_cons]

/-- Equal 64-bit truncations give equal `content_hash` strings. -/
theorem contentHash_eq_of_hashVal_eq (c1 c2 : Conversation)
    (h : hashVal c1 = hashVal c2) : c1.content_hash = c2.content_hash := by
  unfold Conversation.content_hash
  have ht : ∀ m : List Nat, (sha256HexChars m).take 16 =
      ((sha256Bytes m).take 8).flatMap hexByte := by
    intro m
    have := take_flatMap_hexByte (sha256Bytes m) 8
    simpa [sha256HexChars] using this
  have hb1 : ∀ b ∈ (sha256Bytes (strBytes c1.serialized_messages)).take 8, b < 256 :=
    fun b hb => sha256Bytes_lt _ b ((List.take_sublist _ _).subset hb)
  have hb2 : ∀ b ∈ (sha256Bytes (strBytes c2.serialized_messages)).take 8, b < 256 :=
    fun b hb => sha256Bytes_lt _ b ((List.take_sublist _ _).subset hb)
  have hlen : ((sha256Bytes (strBytes c1.serialized_messages)).take 8).length =
      ((sha256Bytes (strBytes c2.serialized_messages)).take 8).length := by
    rw [List.length_take, List.length_take, sha256Bytes_length, sha256Bytes_length]
  have hbytes := btN_inj _ _ hlen hb1 hb2 h
  rw [ht, ht, hbytes]

/-- The truncated digest value fits in 64 bits. -/
theorem hashVal_lt (c : Conversation) : hashVal c < 2 ^ 64 := by
  unfold hashVal
  have hb : ∀ b ∈ (sha256Bytes (strBytes c.serialized_messages)).take 8, b < 256 :=
    fun b hb => sha256Bytes_lt _ b ((List.take_sublist _ _).subset hb)
  have := btN_lt _ hb
  have hlen : ((sha256Bytes (strBytes c.serialized_messages)).take 8).length = 8 := by
    rw [List.length_take, sha256Bytes_length]
    rfl
  rw [hlen] at this
  calc btN _ < 256 ^ 8 := this
    _ = 2 ^ 64 := by norm_num

/-- The sample messages are pairwise distinct. -/
theorem baseMsg_inj : Function.Injective baseMsg := by
  intro i j h
  have := congrArg (fun m : Message => m.content.data.length) h
  simp only [baseMsg, List.length_replicate] at this
  exact Fin.ext this

/-- Any two permuted sample conversations hold the same messages. -/
theorem convOf_messages_perm (σ τ : Equiv.Perm (Fin 21)) :
    (convOf σ).messages.Perm (convOf τ).messages := by
  have base : ∀ (ρ : Equiv.Perm (Fin 21)),
      (List.ofFn (fun i => baseMsg (ρ i))).Perm (List.ofFn baseMsg) := by
    intro ρ
    rw [List.ofFn_eq_map, List.ofFn_eq_map]
    have hperm : ((List.finRange 21).map ρ).Perm (List.finRange 21) := by
      apply List.perm_of_nodup_nodup_toFinset_eq
      · exact (List.nodup_finRange 21).map ρ.injective
      · exact List.nodup_finRange 21
      · ext a
        simp only [List.mem_toFinset, List.mem_map, List.mem_finRange, true_and,
          iff_true]
        exact ⟨ρ.symm a, ρ.apply_symm_apply a⟩
    have := hperm.map baseMsg
    rw [List.map_map] at this
    simpa [Function.comp] using this
  exact (base σ).trans (base τ).symm

/-- Distinct permutations order the sample messages differently. -/
theorem convOf_messages_ne (σ τ : Equiv.Perm (Fin 21)) (h : σ ≠ τ) :
    (convOf σ).messages ≠ (convOf τ).messages := by
  intro he
  apply h
  have he' : List.ofFn (fun i => baseMsg (σ i)) = List.ofFn (fun i => baseMsg (τ i)) := he
  have hfn := List.ofFn_inj.mp he'
  apply Equiv.coe_fn_injective
  funext i
  exact baseMsg_inj (congrFun hfn i)

set_option maxRecDepth 100000 in
/-- C7 as stated is false: the stored fingerprint keeps only 64 bits of
the SHA-256, and the 21! orderings of 21 distinct messages outnumber the
2^64 possible truncated digests, so two different orderings of the same
messages share a `content_hash` — and merging the reordered conversation
over an entry built from the other is then skipped, not updated. -/
theorem content_hash_order_counterexample :
    ∃ (c1 c2 : Conversation) (p : String),
      c1.id = c2.id ∧
      c2.messages.Perm c1.messages ∧
      c1.messages ≠ c2.messages ∧
      (∃ m1 ∈ c1.messages, ∃ m2 ∈ c1.messages, m1 ≠ m2) ∧
      c1.content_hash = c2.content_hash ∧
      (Index.merge ⟨[(c1.id, IndexEntry.from_conversation c1 p)]⟩ c2 p).1.action ≠
        "updated" := by
  have hcard : Fintype.card (Fin (2 ^ 64)) < Fintype.card (Equiv.Perm (Fin 21)) := by
    rw [Fintype.card_perm, Fintype.card_fin, Fintype.card_fin]
    decide
  obtain ⟨σ, τ, hne, heq⟩ := Fintype.exists_ne_map_eq_of_card_lt
    (fun ρ : Equiv.Perm (Fin 21) =>
      (⟨hashVal (convOf ρ), hashVal_lt _⟩ : Fin (2 ^ 64))) hcard
  have hhv : hashVal (convOf σ) = hashVal (convOf τ) := congrArg Fin.val heq
  have hhash : (convOf σ).content_hash = (convOf τ).content_hash :=
    contentHash_eq_of_hashVal_eq _ _ hhv
  refine ⟨convOf σ, convOf τ, "p", rfl, convOf_messages_perm τ σ,
    convOf_messages_ne σ τ hne, ?_, hhash, ?_⟩
  · refine ⟨baseMsg 0, ?_, baseMsg 1, ?_, ?_⟩
    · rw [show (convOf σ).messages = List.ofFn (fun i => baseMsg (σ i)) from rfl,
        List.mem_ofFn]
      exact ⟨σ.symm 0, by simp⟩
    · rw [show (convOf σ).messages = List.ofFn (fun i => baseMsg (σ i)) from rfl,
        List.mem_ofFn]
      exact ⟨σ.symm 1, by simp⟩
    · intro h
      have := baseMsg_inj h
      exact absurd this (by decide)
  · have hget : dictGet (convOf τ).id
        [((convOf σ).id, IndexEntry.from_conversation (convOf σ) "p")] =
        some (IndexEntry.from_conversation (convOf σ) "p") := by
      simp [dictGet, convOf]
    have hbool : (decide ((IndexEntry.from_conversation (convOf σ) "p").updated_at <
          (convOf τ).updated_at) ||
        decide ((IndexEntry.from_conversation (convOf σ) "p").message_count <
          (convOf τ).message_count) ||
        decide ((convOf τ).content_hash ≠
          (IndexEntry.from_conversation (convOf σ) "p").content_hash)) = false := by
      simp only [Bool.or_eq_false_iff, decide_eq_false_iff_not]
      refine ⟨⟨?_, ?_⟩, ?_⟩
      · intro h
        simp [IndexEntry.from_conversation, convOf] at h
      · intro h
        simp [IndexEntry.from_conversation, convOf, Conversation.message_count,
          List.length_ofFn] at h
      · intro h
        exact h hhash.symm
    simp only [Index.merge, hget, hbool]
    rw [if_neg Bool.false_ne_true]
    show ("skipped" : String) ≠ "updated"
    decide

/-- C7 as amended: reordering is detected exactly through the truncated
hash — for any two conversations with the same id whose messages are
reorderings of one another, whenever their `content_hash` values differ
(as they do for typical reorderings, e.g. the concrete two-message witness
below), merging the reordered conversation over an index entry built from
the original yields action `"updated"`. -/
theorem content_hash_differs_merge_updated
    (c1 c2 : Conversation) (p p0 : String) (idx : Index)
    (hperm : c2.messages.Perm c1.messages)
    (hid : c2.id = c1.id)
    (hget : dictGet c2.id idx.entries = some (IndexEntry.from_conversation c1 p0))
    (hhash : c2.content_hash ≠ c1.content_hash) :
    (idx.merge c2 p).1.action = "updated" := by
  have hch : decide (c2.content_hash ≠
      (IndexEntry.from_conversation c1 p0).content_hash) = true :=
    decide_eq_true hhash
  simp only [Index.merge, hget, hch, Bool.or_true, if_true]

set_option maxRecDepth 1000000 in
/-- Witness for the amended C7: the two-message reordering has different
truncated hashes (computed through the full serialization and SHA-256
pipeline) and merging it over the entry built from the original updates. -/
theorem content_hash_differs_merge_updated_witness :
    convP2.messages.Perm convP1.messages ∧
    convP2.content_hash ≠ convP1.content_hash ∧
    (Index.merge ⟨[("chatgpt:x", IndexEntry.from_conversation convP1 "p0")]⟩
      convP2 "p").1.action = "updated" := by
  have hperm : convP2.messages.Perm convP1.messages := List.Perm.swap msgA msgB []
  have hhash : convP2.content_hash ≠ convP1.content_hash := by decide
  refine ⟨hperm, hhash, ?_⟩
  exact content_hash_differs_merge_updated convP1 convP2 "p" "p0" _ hperm rfl
    (by decide) hhash
